import Mathlib

/-!
Shallow embedding of the BVH-construction core of `src/script.js`:
`buildLBVH` (per-triangle AABB/centroid preprocessing and the recursive
SAH splitter `recurse`), `flattenForSSBO`, and `splitHalf`.

Numbers are modelled by `ℚ` (exact arithmetic in place of IEEE doubles);
the JavaScript `Infinity` / `-Infinity` seeds of the min/max accumulator
loops are modelled by `⊤ : WithTop ℚ` / `⊥ : WithBot ℚ`.  The mutable
state of the builder (the closure captures `triOrder` and `nodes`, and
reads the mesh) is threaded explicitly as a `BuildState`; the recursion
is driven by an explicit fuel parameter so that every definition is
executable, with fuel sufficiency proved separately.
-/

/-- A 3-component vector, one `ℚ` per axis (the JS code stores these as
three consecutive floats of a flat array). -/
structure Vec3 where
  x : ℚ
  y : ℚ
  z : ℚ
deriving DecidableEq, Repr

/-- Component `k` of a vector, `k = 0,1,2`; mirrors the JS `v[3*t + k]`
flat-array access. -/
def Vec3.nth (v : Vec3) : ℕ → ℚ
  | 0 => v.x
  | 1 => v.y
  | _ => v.z

/-- Componentwise minimum (the per-axis `Math.min`). -/
def vmin (a b : Vec3) : Vec3 :=
  ⟨min a.x b.x, min a.y b.y, min a.z b.z⟩

/-- Componentwise maximum (the per-axis `Math.max`). -/
def vmax (a b : Vec3) : Vec3 :=
  ⟨max a.x b.x, max a.y b.y, max a.z b.z⟩

/-- The input mesh, as produced by the OBJ loader: flat position/normal
arrays (grouped here 3 floats to a `Vec3`) and flat per-triangle index
triples `vertIdx`/`normIdx` of length `3·T`. -/
structure Mesh where
  positions : List Vec3
  normals : List Vec3
  vertIdx : List ℕ
  normIdx : List ℕ
deriving DecidableEq, Repr

/-- `tris = mesh.vertIdx.length / 3` from `buildLBVH`. -/
def triCount (m : Mesh) : ℕ := m.vertIdx.length / 3

/-- Position of corner `v` (0,1,2) of triangle `t`: the JS
`mesh.positions[mesh.vertIdx[3*t+v]*3 ..]` lookup. -/
def vertexPos (m : Mesh) (t v : ℕ) : Vec3 :=
  m.positions.getD (m.vertIdx.getD (3 * t + v) 0) ⟨0, 0, 0⟩

/-- `triMin[t]`: componentwise `Math.min(x0, x1, x2)` of the three corner
positions (stage 1 of `buildLBVH`). -/
def triMinOf (m : Mesh) (t : ℕ) : Vec3 :=
  vmin (vmin (vertexPos m t 0) (vertexPos m t 1)) (vertexPos m t 2)

/-- `triMax[t]`: componentwise `Math.max(x0, x1, x2)` of the three corner
positions (stage 1 of `buildLBVH`). -/
def triMaxOf (m : Mesh) (t : ℕ) : Vec3 :=
  vmax (vmax (vertexPos m t 0) (vertexPos m t 1)) (vertexPos m t 2)

/-- `centroids[t]`: per axis `(x0 + x1 + x2) / 3` (stage 1 of
`buildLBVH`). -/
def centroidOf (m : Mesh) (t : ℕ) : Vec3 :=
  ⟨((vertexPos m t 0).x + (vertexPos m t 1).x + (vertexPos m t 2).x) / 3,
   ((vertexPos m t 0).y + (vertexPos m t 1).y + (vertexPos m t 2).y) / 3,
   ((vertexPos m t 0).z + (vertexPos m t 1).z + (vertexPos m t 2).z) / 3⟩

/-- The stage-1 scratch array `triMin` of `buildLBVH` (one entry per
triangle, in triangle order). -/
def precompTriMin (m : Mesh) : List Vec3 :=
  (List.range (triCount m)).map (triMinOf m)

/-- The stage-1 scratch array `triMax` of `buildLBVH`. -/
def precompTriMax (m : Mesh) : List Vec3 :=
  (List.range (triCount m)).map (triMaxOf m)

/-- The stage-1 scratch array `centroids` of `buildLBVH`. -/
def precompCentroids (m : Mesh) : List Vec3 :=
  (List.range (triCount m)).map (centroidOf m)

/-- The running-minimum loop `for (t in l) mn = Math.min(mn, h t)` with
its `Infinity` seed (`⊤`). -/
def accMin (h : ℕ → ℚ) (l : List ℕ) : WithTop ℚ :=
  l.foldl (fun a t => min a ((h t : ℚ) : WithTop ℚ)) ⊤

/-- The running-maximum loop with its `-Infinity` seed (`⊥`). -/
def accMax (h : ℕ → ℚ) (l : List ℕ) : WithBot ℚ :=
  l.foldl (fun a t => max a ((h t : ℚ) : WithBot ℚ)) ⊥

/-- Read a finished minimum accumulator back as a plain `ℚ`.  The JS
code stores the accumulated float directly; every range the builder
folds over is nonempty, so the default is never observed. -/
def unT (a : WithTop ℚ) : ℚ := a.untop' 0

/-- Read a finished maximum accumulator back as a plain `ℚ`. -/
def unB (a : WithBot ℚ) : ℚ := a.unbot' 0

/-- Componentwise min-union of `f t` over the triangle list `l` (the
`mn[k] = Math.min(mn[k], ...)` loops of `recurse`). -/
def boundsMin (f : ℕ → Vec3) (l : List ℕ) : Vec3 :=
  ⟨unT (accMin (fun t => (f t).x) l),
   unT (accMin (fun t => (f t).y) l),
   unT (accMin (fun t => (f t).z) l)⟩

/-- Componentwise max-union of `f t` over the triangle list `l`. -/
def boundsMax (f : ℕ → Vec3) (l : List ℕ) : Vec3 :=
  ⟨unB (accMax (fun t => (f t).x) l),
   unB (accMax (fun t => (f t).y) l),
   unB (accMax (fun t => (f t).z) l)⟩

/-- A BVH node `{ mn, mx, left, right }` as pushed by `recurse`.  For a
leaf, `left` is the start offset into `triOrder` and `right` the negated
triangle count; for an internal node, `left`/`right` are child node
indices. -/
structure Node where
  mn : Vec3
  mx : Vec3
  left : ℤ
  right : ℤ
deriving DecidableEq, Repr

/-- Placeholder for the `nodes.push(null)` slot reserved at the start of
each `recurse` call; it is overwritten before the call returns. -/
def dummyNode : Node := ⟨⟨0, 0, 0⟩, ⟨0, 0, 0⟩, 0, 0⟩

/-- The mutable state the `recurse` closure works on: the captured mesh
(read-only), the triangle permutation `triOrder`, and the node list. -/
structure BuildState where
  mesh : Mesh
  triOrder : List ℕ
  nodes : List Node
deriving DecidableEq, Repr

/-- The sub-sequence `ord[s..e)` (the triangle ids of the range a
`recurse(start, end)` call owns). -/
def rangeList (l : List ℕ) (s e : ℕ) : List ℕ :=
  (l.drop s).take (e - s)

/-- The in-place swap `[a[i], a[j]] = [a[j], a[i]]`. -/
def listSwap (l : List ℕ) (i j : ℕ) : List ℕ :=
  (l.set i (l.getD j 0)).set j (l.getD i 0)

/-- The two-pointer partition scan of `recurse` (lines 467-476 of
`script.js`): advance `i` over elements whose centroid is left of the
split plane, otherwise swap to position `j` and retreat `j`; returns the
final array and `mid = i`.  The JS loop indices are ints that may go
below 0, hence `ℤ`; the fuel is one unit per iteration (`j + 1 - i`
shrinks by one each time, so `count` suffices at the call site). -/
def partLoop (cen : ℕ → ℚ) (sp : ℚ) : ℕ → List ℕ → ℤ → ℤ → List ℕ × ℤ
  | 0, ord, i, _ => (ord, i)
  | fuel + 1, ord, i, j =>
    if i ≤ j then
      if cen (ord.getD i.toNat 0) < sp then
        partLoop cen sp fuel ord (i + 1) j
      else
        partLoop cen sp fuel (listSwap ord i.toNat j.toNat) i (j - 1)
    else (ord, i)

/-- Split-axis choice: the axis of largest centroid extent, with the JS
tie-breaking `ext[0] > ext[1] ? (ext[0] > ext[2] ? 0 : 2) : (ext[1] > ext[2] ? 1 : 2)`. -/
def chooseAxis (e : Vec3) : ℕ :=
  if e.x > e.y then (if e.x > e.z then 0 else 2)
  else (if e.y > e.z then 1 else 2)

/-- Bucket index of a centroid coordinate `c`:
`b = floor((c - cMn) * invExt * 16)` clamped to `[0, 15]` (BINS = 16). -/
def binOf (cmn invExt c : ℚ) : ℕ :=
  let b : ℤ := ⌊(c - cmn) * invExt * 16⌋
  if b < 0 then 0 else if 16 ≤ b then 15 else b.toNat

/-- `leftCount[i]`: the prefix sum of the bucket counts, i.e. how many
triangles of the range fall in buckets `0..i`. -/
def leftCount (bin : ℕ → ℕ) (ts : List ℕ) (i : ℕ) : ℕ :=
  ts.countP (fun t => decide (bin t ≤ i))

/-- `rightCount[i]`: how many triangles fall in buckets `i..15`. -/
def rightCount (bin : ℕ → ℕ) (ts : List ℕ) (i : ℕ) : ℕ :=
  ts.countP (fun t => decide (i ≤ bin t))

/-- Surface-area measure `2*(dx*dy + dy*dz + dz*dx)` of the box `[mn, mx]`. -/
def surf (mn mx : Vec3) : ℚ :=
  2 * ((mx.x - mn.x) * (mx.y - mn.y)
     + (mx.y - mn.y) * (mx.z - mn.z)
     + (mx.z - mn.z) * (mx.x - mn.x))

/-- SAH cost of splitting after bucket `i`:
`sL/PS * nL + sR/PS * nR`, where `sL`/`sR` are the surface areas of the
prefix/suffix centroid-bounds unions (the `leftMin3`/`leftMax3` and
`rightMin3`/`rightMax3` running unions of the source collapse to unions
over the triangles in buckets `≤ i` resp. `≥ i+1`). -/
def sahCost (PS : ℚ) (cen3 : ℕ → Vec3) (bin : ℕ → ℕ) (ts : List ℕ) (i : ℕ) : ℚ :=
  let lts := ts.filter (fun t => decide (bin t ≤ i))
  let rts := ts.filter (fun t => decide (i + 1 ≤ bin t))
  let sL := surf (boundsMin cen3 lts) (boundsMax cen3 lts)
  let sR := surf (boundsMin cen3 rts) (boundsMax cen3 rts)
  sL / PS * (leftCount bin ts i : ℚ) + sR / PS * (rightCount bin ts (i + 1) : ℚ)

/-- One iteration of the best-bin loop (lines 438-454): skip a boundary
with an empty side (`continue`), otherwise keep the boundary if its cost
is strictly below the best so far. -/
def bestStep (PS : ℚ) (cen3 : ℕ → Vec3) (bin : ℕ → ℕ) (ts : List ℕ)
    (acc : WithTop ℚ × ℤ) (i : ℕ) : WithTop ℚ × ℤ :=
  if leftCount bin ts i = 0 ∨ rightCount bin ts (i + 1) = 0 then acc
  else if (sahCost PS cen3 bin ts i : WithTop ℚ) < acc.1
    then ((sahCost PS cen3 bin ts i : WithTop ℚ), (i : ℤ))
    else acc

/-- The best-bin search (lines 437-454): scan boundaries `i = 0..14`;
`bestCost` starts at `Infinity` (`⊤`), `bestBin` at `-1`. -/
def bestSplit (PS : ℚ) (cen3 : ℕ → Vec3) (bin : ℕ → ℕ) (ts : List ℕ) : ℤ :=
  ((List.range 15).foldl (bestStep PS cen3 bin ts) ((⊤ : WithTop ℚ), (-1 : ℤ))).2

/-- The centroid-bounds minimum `cMn` of a range (lines 365-374). -/
def cMnOf (m : Mesh) (ord : List ℕ) (start endd : ℕ) : Vec3 :=
  boundsMin (centroidOf m) (rangeList ord start endd)

/-- The centroid-bounds maximum `cMx` of a range. -/
def cMxOf (m : Mesh) (ord : List ℕ) (start endd : ℕ) : Vec3 :=
  boundsMax (centroidOf m) (rangeList ord start endd)

/-- The centroid extent `ext = cMx - cMn` of a range (line 375). -/
def extOf (m : Mesh) (ord : List ℕ) (start endd : ℕ) : Vec3 :=
  ⟨(cMxOf m ord start endd).x - (cMnOf m ord start endd).x,
   (cMxOf m ord start endd).y - (cMnOf m ord start endd).y,
   (cMxOf m ord start endd).z - (cMnOf m ord start endd).z⟩

/-- The split axis chosen for a range (lines 376-378). -/
def axisOf (m : Mesh) (ord : List ℕ) (start endd : ℕ) : ℕ :=
  chooseAxis (extOf m ord start endd)

/-- `invExt = ext[axis] > 0 ? 1 / ext[axis] : 0` (line 385). -/
def invExtOf (m : Mesh) (ord : List ℕ) (start endd : ℕ) : ℚ :=
  if (extOf m ord start endd).nth (axisOf m ord start endd) > 0
    then 1 / (extOf m ord start endd).nth (axisOf m ord start endd) else 0

/-- The centroid coordinate along the chosen axis. -/
def cenAxOf (m : Mesh) (ord : List ℕ) (start endd : ℕ) (t : ℕ) : ℚ :=
  (centroidOf m t).nth (axisOf m ord start endd)

/-- The bucket assignment of a range (lines 387-391). -/
def binsOf (m : Mesh) (ord : List ℕ) (start endd : ℕ) (t : ℕ) : ℕ :=
  binOf ((cMnOf m ord start endd).nth (axisOf m ord start endd))
    (invExtOf m ord start endd) (cenAxOf m ord start endd t)

/-- `bestBin` of a range: the best-bin search fed with the range's true
surface area `PS` (lines 432-434) and bucket assignment. -/
def bbOf (m : Mesh) (ord : List ℕ) (start endd : ℕ) : ℤ :=
  bestSplit
    (surf (boundsMin (triMinOf m) (rangeList ord start endd))
          (boundsMax (triMaxOf m) (rangeList ord start endd)))
    (centroidOf m) (binsOf m ord start endd) (rangeList ord start endd)

/-- The split plane `splitPos = cMn[axis] + ((bestBin+1)/BINS) * ext[axis]`
(line 466). -/
def splitPosOf (m : Mesh) (ord : List ℕ) (start endd : ℕ) : ℚ :=
  (cMnOf m ord start endd).nth (axisOf m ord start endd)
    + (((bbOf m ord start endd : ℚ) + 1) / 16)
      * (extOf m ord start endd).nth (axisOf m ord start endd)

/-- For a range `[start, end)` with more than `leafCapacity` triangles:
if no boundary is valid (`bestBin < 0`) fall back to the median split by
index (line 458), otherwise partition `ord` in place around the split
plane.  Returns the (possibly) reordered `triOrder` and `mid`.  Both
source code paths (lines 457-463 and 466-481) continue identically with
the two recursive calls, which stay in `recurse`. -/
def splitMid (m : Mesh) (ord : List ℕ) (start endd : ℕ) : List ℕ × ℕ :=
  if bbOf m ord start endd < 0 then
    (ord, start + (endd - start) / 2)
  else
    let pr := partLoop (cenAxOf m ord start endd) (splitPosOf m ord start endd)
      (endd - start) ord (start : ℤ) ((endd : ℤ) - 1)
    (pr.1, pr.2.toNat)

/-- The recursive splitter `recurse(start, end)` (lines 342-484), fuel
explicit.  Each call reserves node slot `nodeIdx` (`nodes.push(null)`),
computes the range's true AABB from `triMin`/`triMax`, and either
finishes a leaf `{mn, mx, left: start, right: -count}` or splits the
range and fills the slot with `{mn, mx, left, right}` child indices. -/
def recurse (leafCap : ℕ) : ℕ → ℕ → ℕ → BuildState → Option (BuildState × ℕ)
  | 0, _, _, _ => none
  | fuel + 1, start, endd, st =>
    let nodeIdx := st.nodes.length
    let nodes1 := st.nodes ++ [dummyNode]
    let ts := rangeList st.triOrder start endd
    let mn := boundsMin (triMinOf st.mesh) ts
    let mx := boundsMax (triMaxOf st.mesh) ts
    if endd - start ≤ leafCap then
      some ({ st with nodes := nodes1.set nodeIdx ⟨mn, mx, (start : ℤ), -((endd - start : ℕ) : ℤ)⟩ }, nodeIdx)
    else
      let next := splitMid st.mesh st.triOrder start endd
      (recurse leafCap fuel start next.2 { st with triOrder := next.1, nodes := nodes1 }).bind fun p1 =>
        (recurse leafCap fuel next.2 endd p1.1).bind fun p2 =>
          some ({ p2.1 with nodes := p2.1.nodes.set nodeIdx ⟨mn, mx, (p1.2 : ℤ), (p2.2 : ℤ)⟩ }, nodeIdx)

/-- `buildLBVH`, state-level result: identity `triOrder`, empty node
list, then `recurse(0, tris)`.  The fuel `tris + 1` is sufficient
(proved below): the range size strictly shrinks along every recursive
call chain. -/
def buildState (m : Mesh) (leafCap : ℕ) : Option (BuildState × ℕ) :=
  recurse leafCap (triCount m + 1) 0 (triCount m) ⟨m, List.range (triCount m), []⟩

/-- `buildLBVH(mesh, leaf)` returning `{ nodes, triOrder }`. -/
def buildLBVH (m : Mesh) (leafCap : ℕ) : Option (List Node × List ℕ) :=
  (buildState m leafCap).map (fun p => (p.1.nodes, p.1.triOrder))

/-- Output record `i` of the flattened position buffer: corner `i % 3`
of triangle `triOrder[i / 3]`, fetched through `vertIdx`, padded to four
floats (the fourth stays at the buffer's zero fill). -/
def cornerPos (m : Mesh) (ord : List ℕ) (r : ℕ) : List ℚ :=
  let ti := ord.getD (r / 3) 0
  let vi := m.vertIdx.getD (3 * ti + r % 3) 0
  let p := m.positions.getD vi ⟨0, 0, 0⟩
  [p.x, p.y, p.z, 0]

/-- Output record `i` of the flattened normal buffer, via `normIdx`. -/
def cornerNor (m : Mesh) (ord : List ℕ) (r : ℕ) : List ℚ :=
  let ti := ord.getD (r / 3) 0
  let ni := m.normIdx.getD (3 * ti + r % 3) 0
  let p := m.normals.getD ni ⟨0, 0, 0⟩
  [p.x, p.y, p.z, 0]

/-- One node serialized to 8 floats, in the order written by lines
510-520: `mn.x, mn.y, mn.z, left, mx.x, mx.y, mx.z, right`. -/
def nodeRecord (n : Node) : List ℚ :=
  [n.mn.x, n.mn.y, n.mn.z, (n.left : ℚ), n.mx.x, n.mx.y, n.mx.z, (n.right : ℚ)]

/-- The state `flattenForSSBO` works on: the mesh it reads and the three
output buffers it allocates and fills. -/
structure FlatState where
  mesh : Mesh
  triPos : List ℚ
  triNor : List ℚ
  bvhData : List ℚ
deriving DecidableEq, Repr

/-- `flattenForSSBO(mesh, bvh)` as a state transformer: fills `triPos`
and `triNor` with one 4-float record per triangle corner in `triOrder`
order, and `bvhData` with one 8-float record per node.  The source
preallocates zero-filled arrays and writes each record's first three
floats at increasing disjoint offsets `(i*3+v)*4` resp. `8*i`, which is
exactly the concatenation of the records (the untouched fourth floats
are the record padding zeros). -/
def flattenFull (st : FlatState) (nodes : List Node) (ord : List ℕ) : FlatState :=
  { st with
    triPos := ((List.range (3 * ord.length)).map (cornerPos st.mesh ord)).flatten,
    triNor := ((List.range (3 * ord.length)).map (cornerNor st.mesh ord)).flatten,
    bvhData := (nodes.map nodeRecord).flatten }

/-- `flattenForSSBO` proper: run on freshly allocated output buffers. -/
def flattenForSSBO (m : Mesh) (nodes : List Node) (ord : List ℕ) : FlatState :=
  flattenFull ⟨m, [], [], []⟩ nodes ord

/-- `splitHalf(a)` (lines 524-527): `vc = a.length / 4` (float division
in JS), `h = Math.ceil(vc / 2)`, slices at `h * 4`. -/
def splitHalf (a : List ℚ) : List ℚ × List ℚ :=
  let h : ℕ := ⌈((a.length : ℚ) / 4) / 2⌉₊
  (a.take (h * 4), a.drop (h * 4))

/-- Structural well-formedness of the subtree rooted at node `idx` over
the triangle range `[s, e)` of `ord`: leaves store
`{left: s, right: -(e-s)}` with `1 ≤ e - s ≤ leafCap` and the range's
true AABB; internal nodes store two child node indices (both strictly
greater than their own, as children are pushed after their parent), the
children split the range at some `mid`, and the node stores the range's
true AABB. -/
inductive SubtreeOK (m : Mesh) (leafCap : ℕ) (nodes : List Node) (ord : List ℕ) :
    ℕ → ℕ → ℕ → Prop
  | leaf (idx s e : ℕ) (nd : Node)
      (hnd : nodes[idx]? = some nd)
      (hleft : nd.left = (s : ℤ))
      (hright : nd.right = -((e - s : ℕ) : ℤ))
      (hlb : 1 ≤ e - s) (hub : e - s ≤ leafCap) (hord : e ≤ ord.length)
      (hmn : nd.mn = boundsMin (triMinOf m) (rangeList ord s e))
      (hmx : nd.mx = boundsMax (triMaxOf m) (rangeList ord s e)) :
      SubtreeOK m leafCap nodes ord idx s e
  | node (idx s mid e : ℕ) (nd : Node) (l r : ℕ)
      (hnd : nodes[idx]? = some nd)
      (hleft : nd.left = (l : ℤ)) (hright : nd.right = (r : ℤ))
      (hil : idx < l) (hir : idx < r)
      (hsm : s < mid) (hme : mid < e)
      (hsub1 : SubtreeOK m leafCap nodes ord l s mid)
      (hsub2 : SubtreeOK m leafCap nodes ord r mid e)
      (hmn : nd.mn = boundsMin (triMinOf m) (rangeList ord s e))
      (hmx : nd.mx = boundsMax (triMaxOf m) (rangeList ord s e)) :
      SubtreeOK m leafCap nodes ord idx s e

/-- One-triangle test mesh used by the concrete witnesses. -/
def wMesh : Mesh :=
  { positions := [⟨0, 0, 0⟩, ⟨1, 0, 0⟩, ⟨0, 1, 0⟩],
    normals := [⟨0, 0, 1⟩],
    vertIdx := [0, 1, 2],
    normIdx := [0, 0, 0] }

/-! ### General list toolbox -/

/-- Ceiling of `k / 2` over `ℚ` agrees with the natural `(k + 1) / 2`. -/
lemma ceil_half_nat (k : ℕ) : ⌈(k : ℚ) / 2⌉₊ = (k + 1) / 2 := by
  rcases Nat.even_or_odd k with ⟨j, rfl⟩ | ⟨j, rfl⟩
  · have h : ((j + j : ℕ) : ℚ) / 2 = (j : ℚ) := by push_cast; ring
    rw [h, Nat.ceil_natCast]
    omega
  · have h : ⌈((2 * j + 1 : ℕ) : ℚ) / 2⌉₊ = j + 1 := by
      rw [Nat.ceil_eq_iff (by omega)]
      push_cast
      constructor <;> nlinarith
    rw [h]
    omega

/-- Length of a flattened map with records of uniform length `L`. -/
lemma flatten_map_length {α β : Type} (f : α → List β) (L : ℕ)
    (hf : ∀ a, (f a).length = L) (l : List α) :
    ((l.map f).flatten).length = L * l.length := by
  induction l with
  | nil => simp
  | cons x xs ih => simp [hf, ih]; ring

/-- Record `i` of a flattened map with records of uniform length `L`. -/
lemma flatten_map_extract {α β : Type} (f : α → List β) (L : ℕ)
    (hf : ∀ a, (f a).length = L) :
    ∀ (l : List α) (i : ℕ) (a : α), l[i]? = some a →
      (((l.map f).flatten).drop (L * i)).take L = f a := by
  intro l
  induction l with
  | nil => intro i a h; simp at h
  | cons x xs ih =>
    intro i a h
    cases i with
    | zero =>
      simp only [List.getElem?_cons_zero, Option.some.injEq] at h
      subst h
      rw [Nat.mul_zero, List.drop_zero, List.map_cons, List.flatten_cons,
        show L = (f x).length from (hf x).symm, List.take_left]
    | succ n =>
      have h' : xs[n]? = some a := by simpa using h
      have hL : L * (n + 1) = (f x).length + L * n := by rw [hf]; ring
      rw [List.map_cons, List.flatten_cons, hL, List.drop_append]
      exact ih n a h'

/-! ### Claim C7: splitHalf -/

/-- C7.  For an array whose length is a multiple of 4, `splitHalf`
returns a first chunk of exactly `ceil(recordCount / 2)` four-float
records, a second chunk with the remaining records, and the two chunks
concatenate back to the input. -/
theorem claim_C7 (a : List ℚ) (h : 4 ∣ a.length) :
    (splitHalf a).1 ++ (splitHalf a).2 = a ∧
    (splitHalf a).1.length = 4 * ((a.length / 4 + 1) / 2) ∧
    (splitHalf a).2.length = a.length - 4 * ((a.length / 4 + 1) / 2) := by
  obtain ⟨k, hk⟩ := h
  have hh : (⌈((a.length : ℚ) / 4) / 2⌉₊) = (k + 1) / 2 := by
    rw [hk]
    have h4 : (((4 * k : ℕ)) : ℚ) / 4 / 2 = (k : ℚ) / 2 := by push_cast; ring
    rw [h4, ceil_half_nat]
  have hsp : splitHalf a = (a.take (((k + 1) / 2) * 4), a.drop (((k + 1) / 2) * 4)) := by
    simp only [splitHalf, hh]
  rw [hsp]
  refine ⟨List.take_append_drop .., ?_, ?_⟩
  · simp only [List.length_take, hk]
    omega
  · simp only [List.length_drop, List.length_take, hk]
    omega

/-- Witness for C7: packing 100 four-float records (400 floats) yields
two chunks of exactly 50 records (200 floats) each, concatenating back
to the input. -/
theorem claim_C7_witness :
    (splitHalf (List.replicate 400 (0 : ℚ))).1 ++ (splitHalf (List.replicate 400 (0 : ℚ))).2
        = List.replicate 400 (0 : ℚ) ∧
    (splitHalf (List.replicate 400 (0 : ℚ))).1.length = 200 ∧
    (splitHalf (List.replicate 400 (0 : ℚ))).2.length = 200 := by
  have h := claim_C7 (List.replicate 400 (0 : ℚ)) (by norm_num)
  norm_num at h
  exact h

/-! ### Claim C8: preprocessing -/

/-- C8.  Stage 1 of `buildLBVH` computes, for every triangle `t`,
`triMin[t]`/`triMax[t]` as the componentwise min/max of the triangle's
three vertex positions and `centroids[t]` as their sum divided by 3,
on each of the three axes. -/
theorem claim_C8 (m : Mesh) (t : ℕ) (ht : t < triCount m) :
    (precompTriMin m)[t]? = some
      ⟨min (vertexPos m t 0).x (min (vertexPos m t 1).x (vertexPos m t 2).x),
       min (vertexPos m t 0).y (min (vertexPos m t 1).y (vertexPos m t 2).y),
       min (vertexPos m t 0).z (min (vertexPos m t 1).z (vertexPos m t 2).z)⟩ ∧
    (precompTriMax m)[t]? = some
      ⟨max (vertexPos m t 0).x (max (vertexPos m t 1).x (vertexPos m t 2).x),
       max (vertexPos m t 0).y (max (vertexPos m t 1).y (vertexPos m t 2).y),
       max (vertexPos m t 0).z (max (vertexPos m t 1).z (vertexPos m t 2).z)⟩ ∧
    (precompCentroids m)[t]? = some
      ⟨((vertexPos m t 0).x + (vertexPos m t 1).x + (vertexPos m t 2).x) / 3,
       ((vertexPos m t 0).y + (vertexPos m t 1).y + (vertexPos m t 2).y) / 3,
       ((vertexPos m t 0).z + (vertexPos m t 1).z + (vertexPos m t 2).z) / 3⟩ := by
  refine ⟨?_, ?_, ?_⟩ <;>
    simp [precompTriMin, precompTriMax, precompCentroids, ht, triMinOf, triMaxOf,
      centroidOf, vmin, vmax, min_assoc, max_assoc]

/-- Witness for C8 at the one-triangle mesh. -/
theorem claim_C8_witness :
    0 < triCount wMesh ∧
    (precompTriMin wMesh)[0]? = some
      ⟨min (vertexPos wMesh 0 0).x (min (vertexPos wMesh 0 1).x (vertexPos wMesh 0 2).x),
       min (vertexPos wMesh 0 0).y (min (vertexPos wMesh 0 1).y (vertexPos wMesh 0 2).y),
       min (vertexPos wMesh 0 0).z (min (vertexPos wMesh 0 1).z (vertexPos wMesh 0 2).z)⟩ :=
  ⟨by decide, (claim_C8 wMesh 0 (by decide)).1⟩

/-! ### Claim C9: node serialization -/

/-- C9.  `flattenForSSBO` serializes node `i` into floats
`8*i .. 8*i+7` in the exact order `mn.x, mn.y, mn.z, left, mx.x, mx.y,
mx.z, right`, with no other layout or padding (8 floats per node,
`8 * nodeCount` floats in total). -/
theorem claim_C9 (m : Mesh) (nodes : List Node) (ord : List ℕ) (i : ℕ) (n : Node)
    (h : nodes[i]? = some n) :
    (((flattenForSSBO m nodes ord).bvhData).drop (8 * i)).take 8
      = [n.mn.x, n.mn.y, n.mn.z, (n.left : ℚ), n.mx.x, n.mx.y, n.mx.z, (n.right : ℚ)] ∧
    (flattenForSSBO m nodes ord).bvhData.length = 8 * nodes.length := by
  constructor
  · have he := flatten_map_extract nodeRecord 8 (fun _ => rfl) nodes i n h
    simpa [flattenForSSBO, flattenFull, nodeRecord] using he
  · simpa [flattenForSSBO, flattenFull] using
      flatten_map_length nodeRecord 8 (fun _ => rfl) nodes

/-- Witness for C9 on a concrete singleton node list. -/
theorem claim_C9_witness :
    (((flattenForSSBO wMesh [dummyNode] [0]).bvhData).drop 0).take 8
      = [0, 0, 0, 0, 0, 0, 0, 0] ∧
    (flattenForSSBO wMesh [dummyNode] [0]).bvhData.length = 8 := by
  have h := claim_C9 wMesh [dummyNode] [0] 0 dummyNode (by decide)
  simpa [dummyNode] using h

/-! ### Claim C6: triangle buffers follow the build order -/

/-- C6.  Record `i` of the flattened position (resp. normal) buffer
holds the position (resp. normal) of corner `i % 3` of triangle
`triOrder[i / 3]`, looked up through that triangle's vertex
(resp. normal) index triple of the original mesh; the buffers hold
`3 * triangleCount` four-float records. -/
theorem claim_C6 (m : Mesh) (nodes : List Node) (ord : List ℕ) (i ti vi ni : ℕ) (p nr : Vec3)
    (hi : i < 3 * ord.length)
    (ht : ord[i / 3]? = some ti)
    (hv : m.vertIdx[3 * ti + i % 3]? = some vi)
    (hp : m.positions[vi]? = some p)
    (hn : m.normIdx[3 * ti + i % 3]? = some ni)
    (hq : m.normals[ni]? = some nr) :
    ((flattenForSSBO m nodes ord).triPos.drop (4 * i)).take 4 = [p.x, p.y, p.z, 0] ∧
    ((flattenForSSBO m nodes ord).triNor.drop (4 * i)).take 4 = [nr.x, nr.y, nr.z, 0] ∧
    (flattenForSSBO m nodes ord).triPos.length = 4 * (3 * ord.length) ∧
    (flattenForSSBO m nodes ord).triNor.length = 4 * (3 * ord.length) := by
  have hr : (List.range (3 * ord.length))[i]? = some i := by
    simp [hi]
  have h1 := flatten_map_extract (cornerPos m ord) 4 (fun _ => rfl) _ i i hr
  have h2 := flatten_map_extract (cornerNor m ord) 4 (fun _ => rfl) _ i i hr
  have e1 : cornerPos m ord i = [p.x, p.y, p.z, 0] := by
    simp [cornerPos, List.getD_eq_getElem?_getD, ht, hv, hp]
  have e2 : cornerNor m ord i = [nr.x, nr.y, nr.z, 0] := by
    simp [cornerNor, List.getD_eq_getElem?_getD, ht, hn, hq]
  refine ⟨?_, ?_, ?_, ?_⟩
  · rw [← e1]; simpa [flattenForSSBO, flattenFull] using h1
  · rw [← e2]; simpa [flattenForSSBO, flattenFull] using h2
  · simpa [flattenForSSBO, flattenFull] using
      flatten_map_length (cornerPos m ord) 4 (fun _ => rfl) (List.range (3 * ord.length))
  · simpa [flattenForSSBO, flattenFull] using
      flatten_map_length (cornerNor m ord) 4 (fun _ => rfl) (List.range (3 * ord.length))

/-- Witness for C6 at the one-triangle mesh, record 0. -/
theorem claim_C6_witness :
    ((flattenForSSBO wMesh [] [0]).triPos.drop 0).take 4 = [0, 0, 0, 0] ∧
    ((flattenForSSBO wMesh [] [0]).triNor.drop 0).take 4 = [0, 0, 1, 0] := by
  have h := claim_C6 wMesh [] [0] 0 0 0 0 ⟨0, 0, 0⟩ ⟨0, 0, 1⟩
    (by decide) (by decide) (by decide) (by decide) (by decide) (by decide)
  exact ⟨by simpa using h.1, by simpa using h.2.1⟩

/-! ### Claim C10: the input mesh is never mutated -/

/-- The builder's recursion only ever rewrites the `triOrder` and
`nodes` fields of its state; the captured mesh passes through
untouched. -/
lemma recurse_mesh (leafCap : ℕ) :
    ∀ (fuel start endd : ℕ) (st : BuildState) (p : BuildState × ℕ),
      recurse leafCap fuel start endd st = some p → p.1.mesh = st.mesh := by
  intro fuel
  induction fuel with
  | zero => intro start endd st p h; simp [recurse] at h
  | succ n ih =>
    intro start endd st p h
    rw [recurse] at h
    by_cases hl : endd - start ≤ leafCap
    · simp only [hl, if_true] at h
      obtain rfl := Option.some.inj h
      rfl
    · simp only [hl, if_false] at h
      obtain ⟨p1, h1, h'⟩ := Option.bind_eq_some.mp h
      obtain ⟨p2, h2, h''⟩ := Option.bind_eq_some.mp h'
      obtain rfl := Option.some.inj h''
      have m1 := ih _ _ _ _ h1
      have m2 := ih _ _ _ _ h2
      exact m2.trans m1

/-- C10.  Neither `buildLBVH` nor `flattenForSSBO` modifies the input
mesh: after the build the state's mesh arrays are element-for-element
the input's, and the flattener's state transformer leaves its mesh
field untouched. -/
theorem claim_C10 (m : Mesh) (cap : ℕ) (p : BuildState × ℕ)
    (h : buildState m cap = some p) :
    (p.1.mesh.positions = m.positions ∧ p.1.mesh.normals = m.normals ∧
     p.1.mesh.vertIdx = m.vertIdx ∧ p.1.mesh.normIdx = m.normIdx) ∧
    (∀ (st : FlatState) (nodes : List Node) (ord : List ℕ),
      (flattenFull st nodes ord).mesh = st.mesh) := by
  have hm := recurse_mesh cap _ _ _ _ p h
  exact ⟨by simp [hm], fun st nodes ord => rfl⟩

/-- Witness for C10 at the one-triangle mesh. -/
theorem claim_C10_witness :
    ∃ p, buildState wMesh 1 = some p ∧
      p.1.mesh.positions = wMesh.positions ∧ p.1.mesh.vertIdx = wMesh.vertIdx := by
  refine ⟨(⟨wMesh, [0], [⟨⟨0, 0, 0⟩, ⟨1, 1, 0⟩, 0, -1⟩]⟩, 0), by decide, ?_⟩
  have h := claim_C10 wMesh 1 (⟨wMesh, [0], [⟨⟨0, 0, 0⟩, ⟨1, 1, 0⟩, 0, -1⟩]⟩, 0) (by decide)
  exact ⟨h.1.1, h.1.2.2.1⟩

/-! ### Accumulator toolbox -/

/-- Folding the min-accumulator from an arbitrary seed. -/
lemma accMin_from (h : ℕ → ℚ) (l : List ℕ) :
    ∀ a : WithTop ℚ,
      l.foldl (fun b t => min b ((h t : ℚ) : WithTop ℚ)) a = min a (accMin h l) := by
  induction l with
  | nil => intro a; simp [accMin]
  | cons t ts ih =>
    intro a
    simp only [accMin, List.foldl_cons] at ih ⊢
    rw [ih, ih (min ⊤ ((h t : ℚ) : WithTop ℚ)), min_eq_right le_top, min_assoc]

/-- Folding the max-accumulator from an arbitrary seed. -/
lemma accMax_from (h : ℕ → ℚ) (l : List ℕ) :
    ∀ a : WithBot ℚ,
      l.foldl (fun b t => max b ((h t : ℚ) : WithBot ℚ)) a = max a (accMax h l) := by
  induction l with
  | nil => intro a; simp [accMax]
  | cons t ts ih =>
    intro a
    simp only [accMax, List.foldl_cons] at ih ⊢
    rw [ih, ih (max ⊥ ((h t : ℚ) : WithBot ℚ)), max_eq_right bot_le, max_assoc]

lemma accMin_cons (h : ℕ → ℚ) (t : ℕ) (ts : List ℕ) :
    accMin h (t :: ts) = min ((h t : ℚ) : WithTop ℚ) (accMin h ts) := by
  simp only [accMin, List.foldl_cons]
  rw [accMin_from, min_eq_right le_top]
  rfl

lemma accMax_cons (h : ℕ → ℚ) (t : ℕ) (ts : List ℕ) :
    accMax h (t :: ts) = max ((h t : ℚ) : WithBot ℚ) (accMax h ts) := by
  simp only [accMax, List.foldl_cons]
  rw [accMax_from, max_eq_right bot_le]
  rfl

lemma accMin_append (h : ℕ → ℚ) (l1 l2 : List ℕ) :
    accMin h (l1 ++ l2) = min (accMin h l1) (accMin h l2) := by
  simp only [accMin, List.foldl_append]
  rw [accMin_from]
  rfl

lemma accMax_append (h : ℕ → ℚ) (l1 l2 : List ℕ) :
    accMax h (l1 ++ l2) = max (accMax h l1) (accMax h l2) := by
  simp only [accMax, List.foldl_append]
  rw [accMax_from]
  rfl

lemma accMin_le_of_mem (h : ℕ → ℚ) {l : List ℕ} {t : ℕ} (ht : t ∈ l) :
    accMin h l ≤ ((h t : ℚ) : WithTop ℚ) := by
  induction l with
  | nil => cases ht
  | cons s ts ih =>
    rw [accMin_cons]
    rcases List.mem_cons.mp ht with rfl | hmem
    · exact min_le_left _ _
    · exact le_trans (min_le_right _ _) (ih hmem)

lemma le_accMax_of_mem (h : ℕ → ℚ) {l : List ℕ} {t : ℕ} (ht : t ∈ l) :
    ((h t : ℚ) : WithBot ℚ) ≤ accMax h l := by
  induction l with
  | nil => cases ht
  | cons s ts ih =>
    rw [accMax_cons]
    rcases List.mem_cons.mp ht with rfl | hmem
    · exact le_max_left _ _
    · exact le_trans (ih hmem) (le_max_right _ _)

lemma accMin_perm (h : ℕ → ℚ) {l1 l2 : List ℕ} (p : l1.Perm l2) :
    accMin h l1 = accMin h l2 := by
  induction p with
  | nil => rfl
  | cons x _ ih => rw [accMin_cons, accMin_cons, ih]
  | swap x y l =>
    rw [accMin_cons, accMin_cons, accMin_cons, accMin_cons, ← min_assoc, ← min_assoc,
      min_comm ((h y : ℚ) : WithTop ℚ)]
  | trans _ _ ih1 ih2 => exact ih1.trans ih2

lemma accMax_perm (h : ℕ → ℚ) {l1 l2 : List ℕ} (p : l1.Perm l2) :
    accMax h l1 = accMax h l2 := by
  induction p with
  | nil => rfl
  | cons x _ ih => rw [accMax_cons, accMax_cons, ih]
  | swap x y l =>
    rw [accMax_cons, accMax_cons, accMax_cons, accMax_cons, ← max_assoc, ← max_assoc,
      max_comm ((h y : ℚ) : WithBot ℚ)]
  | trans _ _ ih1 ih2 => exact ih1.trans ih2

lemma accMin_coe (h : ℕ → ℚ) : ∀ {l : List ℕ}, l ≠ [] →
    ∃ q : ℚ, accMin h l = (q : WithTop ℚ) := by
  intro l
  induction l with
  | nil => intro hl; cases hl rfl
  | cons t ts ih =>
    intro _
    rw [accMin_cons]
    rcases eq_or_ne ts [] with rfl | hts
    · exact ⟨h t, by simp [accMin]⟩
    · obtain ⟨q, hq⟩ := ih hts
      exact ⟨min (h t) q, by rw [hq, ← WithTop.coe_min]⟩

lemma accMax_coe (h : ℕ → ℚ) : ∀ {l : List ℕ}, l ≠ [] →
    ∃ q : ℚ, accMax h l = (q : WithBot ℚ) := by
  intro l
  induction l with
  | nil => intro hl; cases hl rfl
  | cons t ts ih =>
    intro _
    rw [accMax_cons]
    rcases eq_or_ne ts [] with rfl | hts
    · exact ⟨h t, by simp [accMax]⟩
    · obtain ⟨q, hq⟩ := ih hts
      exact ⟨max (h t) q, by rw [hq, ← WithBot.coe_max]⟩

lemma boundsMin_perm (f : ℕ → Vec3) {l1 l2 : List ℕ} (p : l1.Perm l2) :
    boundsMin f l1 = boundsMin f l2 := by
  simp only [boundsMin, accMin_perm _ p]

lemma boundsMax_perm (f : ℕ → Vec3) {l1 l2 : List ℕ} (p : l1.Perm l2) :
    boundsMax f l1 = boundsMax f l2 := by
  simp only [boundsMax, accMax_perm _ p]

lemma boundsMin_append (f : ℕ → Vec3) {l1 l2 : List ℕ} (h1 : l1 ≠ []) (h2 : l2 ≠ []) :
    boundsMin f (l1 ++ l2) = vmin (boundsMin f l1) (boundsMin f l2) := by
  have comp : ∀ g : ℕ → ℚ, unT (accMin g (l1 ++ l2)) = min (unT (accMin g l1)) (unT (accMin g l2)) := by
    intro g
    obtain ⟨q1, hq1⟩ := accMin_coe g h1
    obtain ⟨q2, hq2⟩ := accMin_coe g h2
    rw [accMin_append, hq1, hq2]
    simp only [unT, ← WithTop.coe_min, WithTop.untop'_coe]
  simp only [boundsMin, vmin, comp]

lemma boundsMax_append (f : ℕ → Vec3) {l1 l2 : List ℕ} (h1 : l1 ≠ []) (h2 : l2 ≠ []) :
    boundsMax f (l1 ++ l2) = vmax (boundsMax f l1) (boundsMax f l2) := by
  have comp : ∀ g : ℕ → ℚ, unB (accMax g (l1 ++ l2)) = max (unB (accMax g l1)) (unB (accMax g l2)) := by
    intro g
    obtain ⟨q1, hq1⟩ := accMax_coe g h1
    obtain ⟨q2, hq2⟩ := accMax_coe g h2
    rw [accMax_append, hq1, hq2]
    simp only [unB, ← WithBot.coe_max, WithBot.unbot'_coe]
  simp only [boundsMax, vmax, comp]

/-- `Vec3.nth` of the collapsed componentwise accumulator. -/
lemma nth_boundsMin_le (f : ℕ → Vec3) {l : List ℕ} {t : ℕ} (ht : t ∈ l) (a : ℕ) :
    (boundsMin f l).nth a ≤ (f t).nth a := by
  have hne : l ≠ [] := List.ne_nil_of_mem ht
  have key : ∀ g : ℕ → ℚ, unT (accMin g l) ≤ g t := by
    intro g
    obtain ⟨q, hq⟩ := accMin_coe g hne
    have h2 := accMin_le_of_mem g ht
    rw [hq] at h2
    rw [hq]
    simpa [unT] using h2
  match a with
  | 0 => exact key _
  | 1 => exact key _
  | (n + 2) => exact key _

/-! ### Range and swap toolbox -/

lemma getElem?_set_self {α : Type} {l : List α} {n : ℕ} {a : α} (h : n < l.length) :
    (l.set n a)[n]? = some a := by
  rw [List.getElem?_set_self']
  simp [List.getElem?_eq_getElem h]

lemma rangeList_length {l : List ℕ} {s e : ℕ} (he : e ≤ l.length) :
    (rangeList l s e).length = e - s := by
  simp only [rangeList, List.length_take, List.length_drop]
  omega

lemma rangeList_getElem? {l : List ℕ} {s e k : ℕ} (hk : k < e - s) :
    (rangeList l s e)[k]? = l[s + k]? := by
  rw [rangeList, List.getElem?_take, if_pos hk, List.getElem?_drop]

lemma rangeList_none {l : List ℕ} {s e k : ℕ} (hk : e - s ≤ k) :
    (rangeList l s e)[k]? = none := by
  rw [rangeList, List.getElem?_take, if_neg (by omega)]

lemma rangeList_congr {l1 l2 : List ℕ} {s e : ℕ}
    (h : ∀ k, s ≤ k → k < e → l1[k]? = l2[k]?) :
    rangeList l1 s e = rangeList l2 s e := by
  apply List.ext_getElem?
  intro k
  by_cases hk : k < e - s
  · rw [rangeList_getElem? hk, rangeList_getElem? hk, h (s + k) (by omega) (by omega)]
  · rw [rangeList_none (by omega), rangeList_none (by omega)]

lemma rangeList_split {l : List ℕ} {s m e : ℕ} (h1 : s ≤ m) (h2 : m ≤ e) :
    rangeList l s e = rangeList l s m ++ rangeList l m e := by
  have hd : (l.drop s).drop (m - s) = l.drop m := by
    rw [List.drop_drop]
    congr 1
    omega
  rw [rangeList, rangeList, rangeList, show e - s = (m - s) + (e - m) by omega, List.take_add, hd]

lemma mem_rangeList {l : List ℕ} {s e t : ℕ} (ht : t ∈ rangeList l s e) :
    ∃ k, s ≤ k ∧ k < e ∧ l[k]? = some t := by
  obtain ⟨n, hn⟩ := List.mem_iff_getElem?.mp ht
  have hlt : n < (rangeList l s e).length := (List.getElem?_eq_some.mp hn).1
  have hn' : n < e - s := by
    have : (rangeList l s e).length ≤ e - s := by
      simp only [rangeList, List.length_take]
      omega
    omega
  refine ⟨s + n, by omega, by omega, ?_⟩
  rw [← rangeList_getElem? hn']
  exact hn

lemma mem_rangeList_of {l : List ℕ} {s e k t : ℕ} (h1 : s ≤ k) (h2 : k < e)
    (h : l[k]? = some t) : t ∈ rangeList l s e := by
  have hh : (rangeList l s e)[k - s]? = some t := by
    rw [rangeList_getElem? (by omega), show s + (k - s) = k by omega]
    exact h
  obtain ⟨hlt, heq⟩ := List.getElem?_eq_some.mp hh
  exact heq ▸ List.getElem_mem hlt

lemma rangeList_ne_nil {l : List ℕ} {s e : ℕ} (h1 : s < e) (h2 : e ≤ l.length) :
    rangeList l s e ≠ [] := by
  have hl := rangeList_length (l := l) (s := s) h2
  intro hnil
  rw [hnil] at hl
  simp at hl
  omega

/-- Swapping the head with element `n` of the tail permutes the list. -/
lemma headSwap_perm (x : ℕ) : ∀ (xs : List ℕ) (n : ℕ), n < xs.length →
    (xs.getD n 0 :: xs.set n x).Perm (x :: xs) := by
  intro xs
  induction xs with
  | nil => intro n h; simp at h
  | cons y ys ih =>
    intro n hn
    cases n with
    | zero =>
      simpa using List.Perm.swap x y ys
    | succ n =>
      have h' : n < ys.length := by simpa using hn
      have step1 : (ys.getD n 0 :: y :: ys.set n x).Perm (y :: ys.getD n 0 :: ys.set n x) :=
        List.Perm.swap y (ys.getD n 0) (ys.set n x)
      have step2 : (y :: ys.getD n 0 :: ys.set n x).Perm (y :: x :: ys) := (ih n h').cons y
      have step3 : (y :: x :: ys).Perm (x :: y :: ys) := List.Perm.swap x y ys
      simpa using (step1.trans step2).trans step3

lemma listSwap_perm : ∀ (l : List ℕ) (i j : ℕ), i < l.length → j < l.length →
    (listSwap l i j).Perm l := by
  intro l
  induction l with
  | nil => intro i j hi _; simp at hi
  | cons x xs ih =>
    intro i j hi hj
    cases i with
    | zero =>
      cases j with
      | zero => simp [listSwap]
      | succ n =>
        have h' : n < xs.length := by simpa using hj
        simpa [listSwap] using headSwap_perm x xs n h'
    | succ m =>
      cases j with
      | zero =>
        have h' : m < xs.length := by simpa using hi
        simpa [listSwap] using headSwap_perm x xs m h'
      | succ n =>
        have hm : m < xs.length := by simpa using hi
        have hn : n < xs.length := by simpa using hj
        simpa [listSwap] using (ih m n hm hn).cons x

lemma listSwap_length (l : List ℕ) (i j : ℕ) : (listSwap l i j).length = l.length := by
  simp [listSwap]

lemma listSwap_getElem?_ne {l : List ℕ} {i j k : ℕ} (h1 : k ≠ i) (h2 : k ≠ j) :
    (listSwap l i j)[k]? = l[k]? := by
  rw [listSwap, List.getElem?_set_ne (Ne.symm h2), List.getElem?_set_ne (Ne.symm h1)]

lemma listSwap_getElem?_j {l : List ℕ} {i j : ℕ} (hj : j < l.length) :
    (listSwap l i j)[j]? = some (l.getD i 0) := by
  rw [listSwap]
  exact getElem?_set_self (by simpa using hj)

/-- A whole-list permutation that is the pointwise identity outside
`[s, e)` restricts to a permutation of the segment `[s, e)`. -/
lemma segPerm {l l' : List ℕ} {s e : ℕ} (hse : s ≤ e)
    (hperm : l'.Perm l)
    (hout : ∀ k : ℕ, k < s ∨ e ≤ k → l'[k]? = l[k]?) :
    (rangeList l' s e).Perm (rangeList l s e) := by
  have htake : l'.take s = l.take s := by
    apply List.ext_getElem?
    intro k
    rw [List.getElem?_take, List.getElem?_take]
    by_cases hk : k < s
    · rw [if_pos hk, if_pos hk, hout k (Or.inl hk)]
    · rw [if_neg hk, if_neg hk]
  have hdrop : l'.drop e = l.drop e := by
    apply List.ext_getElem?
    intro k
    rw [List.getElem?_drop, List.getElem?_drop, hout (e + k) (Or.inr (by omega))]
  have hdec : ∀ (w : List ℕ), w.take s ++ (rangeList w s e ++ w.drop e) = w := by
    intro w
    have hd : (w.drop s).drop (e - s) = w.drop e := by
      rw [List.drop_drop]
      congr 1
      omega
    rw [rangeList, ← hd, List.take_append_drop, List.take_append_drop]
  have h2 : (l'.take s ++ (rangeList l' s e ++ l'.drop e)).Perm
      (l.take s ++ (rangeList l s e ++ l.drop e)) := by
    rw [hdec, hdec]
    exact hperm
  rw [htake] at h2
  have h3 := (List.perm_append_left_iff _).mp h2
  rw [hdrop] at h3
  exact (List.perm_append_right_iff _).mp h3

/-! ### Partition loop invariant -/

/-- Full specification of the two-pointer partition scan: it returns a
permutation of the input that agrees with it outside `[i, j]`, and a
pivot `ii ∈ [i, j+1]` such that every position in `[i, ii)` holds an
element left of the split plane and every position in `[ii, j]` an
element right of (or on) it. -/
lemma partLoop_spec (cen : ℕ → ℚ) (sp : ℚ) :
    ∀ (fuel : ℕ) (ord : List ℕ) (i j : ℤ),
      0 ≤ i → i ≤ j + 1 → j < (ord.length : ℤ) →
      (j + 1 - i).toNat ≤ fuel →
      ∃ ord' ii,
        partLoop cen sp fuel ord i j = (ord', ii) ∧
        ord'.length = ord.length ∧
        ord'.Perm ord ∧
        i ≤ ii ∧ ii ≤ j + 1 ∧
        (∀ k : ℕ, ((k : ℤ) < i ∨ j < (k : ℤ)) → ord'[k]? = ord[k]?) ∧
        (∀ k : ℕ, i ≤ (k : ℤ) → (k : ℤ) < ii → ∃ t, ord'[k]? = some t ∧ cen t < sp) ∧
        (∀ k : ℕ, ii ≤ (k : ℤ) → (k : ℤ) ≤ j → ∃ t, ord'[k]? = some t ∧ ¬ cen t < sp) := by
  intro fuel
  induction fuel with
  | zero =>
    intro ord i j h0 hij hjl hfuel
    refine ⟨ord, i, rfl, rfl, .refl _, le_refl _, hij, fun k _ => rfl, ?_, ?_⟩
    · intro k hk1 hk2; omega
    · intro k hk1 hk2; omega
  | succ n ih =>
    intro ord i j h0 hij hjl hfuel
    by_cases hcond : i ≤ j
    · have hi_lt : i.toNat < ord.length := by omega
      obtain ⟨t0, ht0⟩ : ∃ t, ord[i.toNat]? = some t :=
        ⟨ord[i.toNat], List.getElem?_eq_getElem hi_lt⟩
      have hgetD : ord.getD i.toNat 0 = t0 := by
        simp [List.getD_eq_getElem?_getD, ht0]
      by_cases hpass : cen (ord.getD i.toNat 0) < sp
      · obtain ⟨ord', ii, heq, hlen, hperm, hii1, hii2, hframe, hpassr, hfailr⟩ :=
          ih ord (i + 1) j (by omega) (by omega) hjl (by omega)
        refine ⟨ord', ii, ?_, hlen, hperm, by omega, hii2, ?_, ?_, hfailr⟩
        · simp only [partLoop, if_pos hcond, if_pos hpass]
          exact heq
        · intro k hk
          exact hframe k (by omega)
        · intro k hk1 hk2
          by_cases hk : (k : ℤ) < i + 1
          · have hkk : k = i.toNat := by omega
            subst hkk
            refine ⟨t0, ?_, ?_⟩
            · rw [hframe _ (Or.inl (by omega))]
              exact ht0
            · rw [hgetD] at hpass
              exact hpass
          · exact hpassr k (by omega) hk2
      · have hj0 : 0 ≤ j := by omega
        have hj_lt : j.toNat < ord.length := by omega
        have hswlen : (listSwap ord i.toNat j.toNat).length = ord.length :=
          listSwap_length ..
        obtain ⟨ord', ii, heq, hlen, hperm, hii1, hii2, hframe, hpassr, hfailr⟩ :=
          ih (listSwap ord i.toNat j.toNat) i (j - 1) h0 (by omega)
            (by rw [hswlen]; omega) (by omega)
        refine ⟨ord', ii, ?_, by rw [hlen, hswlen],
          hperm.trans (listSwap_perm ord i.toNat j.toNat hi_lt hj_lt),
          hii1, by omega, ?_, hpassr, ?_⟩
        · simp only [partLoop, if_pos hcond, if_neg hpass]
          exact heq
        · intro k hk
          rw [hframe k (by omega)]
          exact listSwap_getElem?_ne (by omega) (by omega)
        · intro k hk1 hk2
          by_cases hk : (k : ℤ) ≤ j - 1
          · exact hfailr k hk1 hk
          · have hkk : k = j.toNat := by omega
            subst hkk
            refine ⟨t0, ?_, ?_⟩
            · rw [hframe _ (Or.inr (by omega)), listSwap_getElem?_j hj_lt, hgetD]
            · rw [hgetD] at hpass
              exact hpass
    · refine ⟨ord, i, ?_, rfl, .refl _, le_refl _, by omega, fun k _ => rfl, ?_, ?_⟩
      · simp only [partLoop, if_neg hcond]
      · intro k hk1 hk2; omega
      · intro k hk1 hk2; omega

/-! ### Best-bin search and split-plane arithmetic -/

/-- A non-negative `bestBin` is a boundary `≤ 14` whose two sides are
both non-empty (exactly the guard of line 440). -/
lemma bestSplit_spec (PS : ℚ) (cen3 : ℕ → Vec3) (bin : ℕ → ℕ) (ts : List ℕ) :
    bestSplit PS cen3 bin ts = -1 ∨
    ∃ bb : ℕ, bestSplit PS cen3 bin ts = (bb : ℤ) ∧ bb ≤ 14 ∧
      0 < leftCount bin ts bb ∧ 0 < rightCount bin ts (bb + 1) := by
  have main : ∀ (l : List ℕ) (acc : WithTop ℚ × ℤ),
      (∀ x ∈ l, x ≤ 14) →
      (acc.2 = -1 ∨ ∃ bb : ℕ, acc.2 = (bb : ℤ) ∧ bb ≤ 14 ∧
        0 < leftCount bin ts bb ∧ 0 < rightCount bin ts (bb + 1)) →
      ((l.foldl (bestStep PS cen3 bin ts) acc).2 = -1 ∨
        ∃ bb : ℕ, (l.foldl (bestStep PS cen3 bin ts) acc).2 = (bb : ℤ) ∧ bb ≤ 14 ∧
          0 < leftCount bin ts bb ∧ 0 < rightCount bin ts (bb + 1)) := by
    intro l
    induction l with
    | nil => intro acc _ hacc; exact hacc
    | cons x xs ih =>
      intro acc hmem hacc
      rw [List.foldl_cons]
      apply ih _ (fun y hy => hmem y (List.mem_cons_of_mem x hy))
      by_cases h1 : leftCount bin ts x = 0 ∨ rightCount bin ts (x + 1) = 0
      · simpa [bestStep, h1] using hacc
      · by_cases h2 : (sahCost PS cen3 bin ts x : WithTop ℚ) < acc.1
        · right
          refine ⟨x, by simp [bestStep, h1, h2], hmem x (List.mem_cons_self x xs),
            Nat.pos_of_ne_zero (fun hh => h1 (Or.inl hh)),
            Nat.pos_of_ne_zero (fun hh => h1 (Or.inr hh))⟩
        · simpa [bestStep, h1, h2] using hacc
  have h15 : ∀ x ∈ List.range 15, x ≤ 14 := by
    intro x hx
    have := List.mem_range.mp hx
    omega
  have hm := main (List.range 15) ((⊤ : WithTop ℚ), (-1 : ℤ)) h15 (Or.inl rfl)
  simpa [bestSplit] using hm

/-- With a zero `invExt` every centroid lands in bucket 0. -/
lemma binOf_zero_invExt (cmn c : ℚ) : binOf cmn 0 c = 0 := by
  simp [binOf]

/-- A triangle in a bucket `≤ bestBin` lies strictly left of the split
plane (exact arithmetic). -/
lemma lt_splitPos_of_bin_le {extA c cmn : ℚ} (hext : 0 < extA) (hc : cmn ≤ c) {bb : ℕ}
    (hbb : bb ≤ 14) (hbin : binOf cmn (1 / extA) c ≤ bb) :
    c < cmn + (((bb : ℚ) + 1) / 16) * extA := by
  simp only [binOf] at hbin
  have hupos : (0 : ℚ) ≤ (c - cmn) * (1 / extA) := by
    have h1 : (0 : ℚ) ≤ c - cmn := by linarith
    positivity
  have hb0 : (0 : ℤ) ≤ ⌊(c - cmn) * (1 / extA) * 16⌋ := by
    apply Int.floor_nonneg.mpr
    positivity
  rw [if_neg (by omega)] at hbin
  by_cases h16 : 16 ≤ ⌊(c - cmn) * (1 / extA) * 16⌋
  · rw [if_pos h16] at hbin
    omega
  · rw [if_neg h16] at hbin
    have hble : ⌊(c - cmn) * (1 / extA) * 16⌋ ≤ (bb : ℤ) := by omega
    have hlt : (c - cmn) * (1 / extA) * 16 < (bb : ℚ) + 1 := by
      have h1 := Int.lt_floor_add_one ((c - cmn) * (1 / extA) * 16)
      have h2 : ((⌊(c - cmn) * (1 / extA) * 16⌋ : ℤ) : ℚ) ≤ (bb : ℚ) := by
        exact_mod_cast hble
      linarith
    have hcm : (c - cmn) * (1 / extA) * extA = c - cmn := by
      field_simp
    have hu16 : (c - cmn) * (1 / extA) < ((bb : ℚ) + 1) / 16 := by linarith
    have hmul := mul_lt_mul_of_pos_right hu16 hext
    rw [hcm] at hmul
    linarith

/-- A triangle in a bucket `≥ bestBin + 1` lies right of (or on) the
split plane (exact arithmetic). -/
lemma splitPos_le_of_bin_ge {extA c cmn : ℚ} (hext : 0 < extA) {bb : ℕ}
    (hbb : bb ≤ 14) (hbin : bb + 1 ≤ binOf cmn (1 / extA) c) :
    cmn + (((bb : ℚ) + 1) / 16) * extA ≤ c := by
  simp only [binOf] at hbin
  have hfloor := Int.floor_le ((c - cmn) * (1 / extA) * 16)
  by_cases hneg : ⌊(c - cmn) * (1 / extA) * 16⌋ < 0
  · rw [if_pos hneg] at hbin
    omega
  · rw [if_neg hneg] at hbin
    have hkey : ((bb : ℚ) + 1) ≤ (c - cmn) * (1 / extA) * 16 := by
      by_cases h16 : 16 ≤ ⌊(c - cmn) * (1 / extA) * 16⌋
      · have hb16 : ((16 : ℚ)) ≤ ((⌊(c - cmn) * (1 / extA) * 16⌋ : ℤ) : ℚ) := by
          exact_mod_cast h16
        have hbbq : ((bb : ℚ)) ≤ 14 := by exact_mod_cast hbb
        linarith
      · rw [if_neg h16] at hbin
        have hble : (bb : ℤ) + 1 ≤ ⌊(c - cmn) * (1 / extA) * 16⌋ := by omega
        have h2 : ((bb : ℚ) + 1) ≤ ((⌊(c - cmn) * (1 / extA) * 16⌋ : ℤ) : ℚ) := by
          exact_mod_cast hble
        linarith
    have h1 : ((bb : ℚ) + 1) / 16 ≤ (c - cmn) * (1 / extA) := by linarith
    have h2 := mul_le_mul_of_nonneg_right h1 (le_of_lt hext)
    have hcm : (c - cmn) * (1 / extA) * extA = c - cmn := by
      field_simp
    rw [hcm] at h2
    linarith

/-- `splitMid` always yields a strictly interior `mid`, and changes the
order only by a permutation confined to `[start, endd)`. -/
lemma splitMid_spec (m : Mesh) (ord : List ℕ) (start endd : ℕ)
    (hse : start + 2 ≤ endd) (hlen : endd ≤ ord.length) :
    start < (splitMid m ord start endd).2 ∧ (splitMid m ord start endd).2 < endd ∧
    (splitMid m ord start endd).1.length = ord.length ∧
    (splitMid m ord start endd).1.Perm ord ∧
    (∀ k : ℕ, k < start ∨ endd ≤ k → (splitMid m ord start endd).1[k]? = ord[k]?) := by
  by_cases hbb : bbOf m ord start endd < 0
  · have hmed : splitMid m ord start endd = (ord, start + (endd - start) / 2) := by
      rw [splitMid, if_pos hbb]
    rw [hmed]
    exact ⟨by omega, by omega, rfl, .refl _, fun k _ => rfl⟩
  · have hspec : bbOf m ord start endd = -1 ∨
        ∃ bb : ℕ, bbOf m ord start endd = (bb : ℤ) ∧ bb ≤ 14 ∧
          0 < leftCount (binsOf m ord start endd) (rangeList ord start endd) bb ∧
          0 < rightCount (binsOf m ord start endd) (rangeList ord start endd) (bb + 1) :=
      bestSplit_spec _ _ _ _
    rcases hspec with h1 | ⟨bb, hbbv, hbb14, hlc, hrc⟩
    · simp [h1] at hbb
    · obtain ⟨tL, htLmem, htLbin⟩ :
          ∃ t ∈ rangeList ord start endd, binsOf m ord start endd t ≤ bb := by
        simpa [leftCount, List.countP_pos_iff] using hlc
      obtain ⟨tR, htRmem, htRbin⟩ :
          ∃ t ∈ rangeList ord start endd, bb + 1 ≤ binsOf m ord start endd t := by
        simpa [rightCount, List.countP_pos_iff] using hrc
      have hext : 0 < (extOf m ord start endd).nth (axisOf m ord start endd) := by
        by_contra hneg
        have hinv : invExtOf m ord start endd = 0 := by
          rw [invExtOf, if_neg hneg]
        rw [binsOf, hinv, binOf_zero_invExt] at htRbin
        omega
      have hinv : invExtOf m ord start endd
          = 1 / (extOf m ord start endd).nth (axisOf m ord start endd) := by
        rw [invExtOf, if_pos hext]
      have hcL : (cMnOf m ord start endd).nth (axisOf m ord start endd)
          ≤ cenAxOf m ord start endd tL :=
        nth_boundsMin_le (centroidOf m) htLmem _
      have hcR : (cMnOf m ord start endd).nth (axisOf m ord start endd)
          ≤ cenAxOf m ord start endd tR :=
        nth_boundsMin_le (centroidOf m) htRmem _
      have hbinL : binOf ((cMnOf m ord start endd).nth (axisOf m ord start endd))
          (1 / (extOf m ord start endd).nth (axisOf m ord start endd))
          (cenAxOf m ord start endd tL) ≤ bb := by
        rw [binsOf, hinv] at htLbin
        exact htLbin
      have hbinR : bb + 1 ≤ binOf ((cMnOf m ord start endd).nth (axisOf m ord start endd))
          (1 / (extOf m ord start endd).nth (axisOf m ord start endd))
          (cenAxOf m ord start endd tR) := by
        rw [binsOf, hinv] at htRbin
        exact htRbin
      have hpassL : cenAxOf m ord start endd tL < splitPosOf m ord start endd := by
        have h := lt_splitPos_of_bin_le hext hcL hbb14 hbinL
        rw [splitPosOf, hbbv, Int.cast_natCast]
        push_cast at h
        linarith
      have hfailR : ¬ (cenAxOf m ord start endd tR < splitPosOf m ord start endd) := by
        have h := splitPos_le_of_bin_ge hext hbb14 hbinR
        rw [splitPosOf, hbbv, Int.cast_natCast]
        apply not_lt.mpr
        push_cast at h
        linarith
      obtain ⟨ord', ii, heq, hplen, hpperm, hii1, hii2, hframe, hpassr, hfailr⟩ :=
        partLoop_spec (cenAxOf m ord start endd) (splitPosOf m ord start endd)
          (endd - start) ord (start : ℤ) ((endd : ℤ) - 1)
          (by omega) (by omega) (by omega) (by omega)
      have hsplit_eq : splitMid m ord start endd = (ord', ii.toNat) := by
        rw [splitMid, if_neg hbb]
        simp [heq]
      have hmidL : start < ii := by
        by_contra hle
        push_neg at hle
        have hseg : (rangeList ord' start endd).Perm (rangeList ord start endd) :=
          segPerm (by omega) hpperm (fun k hk => hframe k (by omega))
        have hmem : tL ∈ rangeList ord' start endd := hseg.mem_iff.mpr htLmem
        obtain ⟨k, hk1, hk2, hk3⟩ := mem_rangeList hmem
        obtain ⟨u, hu1, hu2⟩ := hfailr k (by omega) (by omega)
        rw [hk3] at hu1
        obtain rfl := Option.some.inj hu1
        exact hu2 hpassL
      have hmidR : ii < endd := by
        by_contra hge
        push_neg at hge
        have hseg : (rangeList ord' start endd).Perm (rangeList ord start endd) :=
          segPerm (by omega) hpperm (fun k hk => hframe k (by omega))
        have hmem : tR ∈ rangeList ord' start endd := hseg.mem_iff.mpr htRmem
        obtain ⟨k, hk1, hk2, hk3⟩ := mem_rangeList hmem
        obtain ⟨u, hu1, hu2⟩ := hpassr k (by omega) (by omega)
        rw [hk3] at hu1
        obtain rfl := Option.some.inj hu1
        exact hfailR hu2
      rw [hsplit_eq]
      refine ⟨by omega, by omega, hplen, hpperm, ?_⟩
      intro k hk
      exact hframe k (by omega)

/-! ### SubtreeOK stability and extraction -/

/-- `SubtreeOK` only inspects node entries at indices `≥ idx`, so any
change of the node list that preserves those entries preserves it. -/
lemma SubtreeOK.mono_nodes {m : Mesh} {cap : ℕ} {nodes nodes' : List Node} {ord : List ℕ} :
    ∀ {idx s e : ℕ}, SubtreeOK m cap nodes ord idx s e →
      (∀ j, idx ≤ j → ∀ nd, nodes[j]? = some nd → nodes'[j]? = some nd) →
      SubtreeOK m cap nodes' ord idx s e := by
  intro idx s e h
  induction h with
  | leaf idx s e nd hnd hleft hright hlb hub hord hmn hmx =>
    intro hn
    exact .leaf idx s e nd (hn idx le_rfl nd hnd) hleft hright hlb hub hord hmn hmx
  | node idx s mid e nd l r hnd hleft hright hil hir hsm hme hsub1 hsub2 hmn hmx ih1 ih2 =>
    intro hn
    exact .node idx s mid e nd l r (hn idx le_rfl nd hnd) hleft hright hil hir hsm hme
      (ih1 (fun j hj => hn j (le_trans (le_of_lt hil) hj)))
      (ih2 (fun j hj => hn j (le_trans (le_of_lt hir) hj)))
      hmn hmx

/-- `SubtreeOK` only inspects `ord` inside `[s, e)`. -/
lemma SubtreeOK.mono_ord {m : Mesh} {cap : ℕ} {nodes : List Node} {ord ord' : List ℕ}
    (hlen : ord'.length = ord.length) :
    ∀ {idx s e : ℕ}, SubtreeOK m cap nodes ord idx s e →
      (∀ k, s ≤ k → k < e → ord'[k]? = ord[k]?) →
      SubtreeOK m cap nodes ord' idx s e := by
  intro idx s e h
  induction h with
  | leaf idx s e nd hnd hleft hright hlb hub hord hmn hmx =>
    intro ho
    exact .leaf idx s e nd hnd hleft hright hlb hub (by omega)
      (by rw [rangeList_congr ho]; exact hmn)
      (by rw [rangeList_congr ho]; exact hmx)
  | node idx s mid e nd l r hnd hleft hright hil hir hsm hme hsub1 hsub2 hmn hmx ih1 ih2 =>
    intro ho
    exact .node idx s mid e nd l r hnd hleft hright hil hir hsm hme
      (ih1 (fun k hk1 hk2 => ho k hk1 (by omega)))
      (ih2 (fun k hk1 hk2 => ho k (by omega) hk2))
      (by rw [rangeList_congr ho]; exact hmn)
      (by rw [rangeList_congr ho]; exact hmx)

/-- Basic bounds carried by a well-formed subtree. -/
lemma SubtreeOK.range_facts {m : Mesh} {cap : ℕ} {nodes : List Node} {ord : List ℕ} :
    ∀ {idx s e : ℕ}, SubtreeOK m cap nodes ord idx s e → s < e ∧ e ≤ ord.length := by
  intro idx s e h
  induction h with
  | leaf idx s e nd hnd hleft hright hlb hub hord hmn hmx => exact ⟨by omega, hord⟩
  | node idx s mid e nd l r hnd hleft hright hil hir hsm hme hsub1 hsub2 hmn hmx ih1 ih2 =>
    exact ⟨by omega, ih2.2⟩

/-- Every position of a well-formed subtree's range is covered by some
leaf of the subtree. -/
lemma SubtreeOK.covers {m : Mesh} {cap : ℕ} {nodes : List Node} {ord : List ℕ} :
    ∀ {idx s e : ℕ}, SubtreeOK m cap nodes ord idx s e →
      ∀ p, s ≤ p → p < e →
        ∃ (li : ℕ) (nd : Node), nodes[li]? = some nd ∧ nd.right < 0 ∧
          nd.left.toNat ≤ p ∧ p < nd.left.toNat + (-nd.right).toNat := by
  intro idx s e h
  induction h with
  | leaf idx s e nd hnd hleft hright hlb hub hord hmn hmx =>
    intro p hp1 hp2
    refine ⟨idx, nd, hnd, ?_, ?_, ?_⟩
    · rw [hright]; omega
    · rw [hleft]; omega
    · rw [hleft, hright]; omega
  | node idx s mid e nd l r hnd hleft hright hil hir hsm hme hsub1 hsub2 hmn hmx ih1 ih2 =>
    intro p hp1 hp2
    by_cases hp : p < mid
    · exact ih1 p hp1 hp
    · exact ih2 p (by omega) hp2


/-! ### The master recursion invariant -/

/-- Fuel-indexed specification of `recurse`: with fuel at least the
range size, the call succeeds and returns the reserved node index and a
state whose mesh is untouched, whose `triOrder` is a permutation of the
input confined to `[start, endd)`, whose node list extends the input
list by the freshly built subtree only, and in which that subtree (and
every newly emitted node) is well-formed; with `leafCapacity = 1` the
subtree has exactly `2·count - 1` nodes. -/
lemma recurse_spec (cap : ℕ) (hcap : 1 ≤ cap) :
    ∀ (fuel : ℕ) (start endd : ℕ) (st : BuildState),
      start < endd → endd ≤ st.triOrder.length → endd - start ≤ fuel →
      ∃ st' idx,
        recurse cap fuel start endd st = some (st', idx) ∧
        idx = st.nodes.length ∧
        st'.mesh = st.mesh ∧
        st'.triOrder.length = st.triOrder.length ∧
        st'.triOrder.Perm st.triOrder ∧
        (∀ k : ℕ, k < start ∨ endd ≤ k → st'.triOrder[k]? = st.triOrder[k]?) ∧
        (∀ j : ℕ, j < st.nodes.length → st'.nodes[j]? = st.nodes[j]?) ∧
        st.nodes.length < st'.nodes.length ∧
        SubtreeOK st.mesh cap st'.nodes st'.triOrder idx start endd ∧
        (∀ k : ℕ, st.nodes.length ≤ k → k < st'.nodes.length →
          ∃ s e, start ≤ s ∧ s < e ∧ e ≤ endd ∧
            SubtreeOK st.mesh cap st'.nodes st'.triOrder k s e) ∧
        (cap = 1 → st'.nodes.length = st.nodes.length + (2 * (endd - start) - 1)) := by
  intro fuel
  induction fuel with
  | zero =>
    intro start endd st hse hlen hfuel
    exfalso
    omega
  | succ n ih =>
    intro start endd st hse hlen hfuel
    by_cases hleaf : endd - start ≤ cap
    · -- leaf branch
      have hsub : SubtreeOK st.mesh cap
          ((st.nodes ++ [dummyNode]).set st.nodes.length
            ⟨boundsMin (triMinOf st.mesh) (rangeList st.triOrder start endd),
             boundsMax (triMaxOf st.mesh) (rangeList st.triOrder start endd),
             (start : ℤ), -((endd - start : ℕ) : ℤ)⟩)
          st.triOrder st.nodes.length start endd := by
        refine SubtreeOK.leaf _ _ _ _ (getElem?_set_self ?_) rfl rfl (by omega) hleaf hlen rfl rfl
        simp
      refine ⟨⟨st.mesh, st.triOrder,
          (st.nodes ++ [dummyNode]).set st.nodes.length
            ⟨boundsMin (triMinOf st.mesh) (rangeList st.triOrder start endd),
             boundsMax (triMaxOf st.mesh) (rangeList st.triOrder start endd),
             (start : ℤ), -((endd - start : ℕ) : ℤ)⟩⟩,
        st.nodes.length, ?_, rfl, rfl, rfl, .refl _, fun k _ => rfl, ?_, ?_, hsub, ?_, ?_⟩
      · simp only [recurse]
        rw [if_pos hleaf]
      · intro j hj
        rw [List.getElem?_set_ne (by omega), List.getElem?_append, if_pos hj]
      · simp
      · intro k hk1 hk2
        simp only [List.length_set, List.length_append, List.length_cons,
          List.length_nil] at hk2
        have hk : k = st.nodes.length := by omega
        subst hk
        exact ⟨start, endd, le_rfl, hse, le_rfl, hsub⟩
      · intro hcap1
        simp only [List.length_set, List.length_append, List.length_cons, List.length_nil]
        omega
    · -- split branch
      have hse2 : start + 2 ≤ endd := by omega
      obtain ⟨hm1, hm2, hmlen, hmperm, hmframe⟩ :=
        splitMid_spec st.mesh st.triOrder start endd hse2 hlen
      obtain ⟨st1, l, heq1, hidx1, hmesh1, hlen1, hperm1, hframe1, hpre1, hgrow1, hsub1,
          hall1, hcnt1⟩ :=
        ih start (splitMid st.mesh st.triOrder start endd).2
          ⟨st.mesh, (splitMid st.mesh st.triOrder start endd).1, st.nodes ++ [dummyNode]⟩
          hm1 (by simpa [hmlen] using le_of_lt (lt_of_lt_of_le hm2 hlen)) (by omega)
      have hmesh1' : st1.mesh = st.mesh := hmesh1
      have hlen1' : st1.triOrder.length = st.triOrder.length := hlen1.trans hmlen
      obtain ⟨st2, r, heq2, hidx2, hmesh2, hlen2, hperm2, hframe2, hpre2, hgrow2, hsub2,
          hall2, hcnt2⟩ :=
        ih (splitMid st.mesh st.triOrder start endd).2 endd st1
          hm2 (by omega) (by omega)
      have hl : l = st.nodes.length + 1 := by simpa using hidx1
      have hg1 : st.nodes.length + 1 < st1.nodes.length := by simpa using hgrow1
      have hr : r = st1.nodes.length := hidx2
      have hpre1' : ∀ j : ℕ, j < st.nodes.length + 1 →
          st1.nodes[j]? = (st.nodes ++ [dummyNode])[j]? := by
        intro j hj
        exact hpre1 j (by simpa using hj)
      set ndI : Node :=
        ⟨boundsMin (triMinOf st.mesh) (rangeList st.triOrder start endd),
         boundsMax (triMaxOf st.mesh) (rangeList st.triOrder start endd),
         (l : ℤ), (r : ℤ)⟩ with hndI
      have hnA : ∀ j : ℕ, ∀ nd : Node, st1.nodes[j]? = some nd → st2.nodes[j]? = some nd := by
        intro j nd h
        rw [hpre2 j (List.getElem?_eq_some.mp h).1]
        exact h
      have hnB : ∀ j : ℕ, st.nodes.length < j → ∀ nd : Node, st2.nodes[j]? = some nd →
          (st2.nodes.set st.nodes.length ndI)[j]? = some nd := by
        intro j hjgt nd h
        rw [List.getElem?_set_ne (by omega)]
        exact h
      have hsubL : SubtreeOK st.mesh cap (st2.nodes.set st.nodes.length ndI) st2.triOrder
          l start (splitMid st.mesh st.triOrder start endd).2 := by
        have s1 : SubtreeOK st.mesh cap st1.nodes st1.triOrder
            l start (splitMid st.mesh st.triOrder start endd).2 := hsub1
        have s2 := s1.mono_nodes (fun j _ nd h => hnA j nd h)
        have s3 := s2.mono_ord hlen2 (fun k _ hk2 => hframe2 k (Or.inl hk2))
        exact s3.mono_nodes (fun j hj nd h => hnB j (by omega) nd h)
      have hsubR : SubtreeOK st.mesh cap (st2.nodes.set st.nodes.length ndI) st2.triOrder
          r (splitMid st.mesh st.triOrder start endd).2 endd := by
        have s1 := hsub2
        rw [hmesh1'] at s1
        exact s1.mono_nodes (fun j hj nd h => hnB j (by omega) nd h)
      have seg1 : (rangeList (splitMid st.mesh st.triOrder start endd).1 start endd).Perm
          (rangeList st.triOrder start endd) :=
        segPerm (by omega) hmperm hmframe
      have seg2 : (rangeList st1.triOrder start endd).Perm
          (rangeList (splitMid st.mesh st.triOrder start endd).1 start endd) :=
        segPerm (by omega) hperm1 (fun k hk => hframe1 k (by omega))
      have seg3 : (rangeList st2.triOrder start endd).Perm
          (rangeList st1.triOrder start endd) :=
        segPerm (by omega) hperm2 (fun k hk => hframe2 k (by omega))
      have segAll := (seg3.trans seg2).trans seg1
      have hroot : SubtreeOK st.mesh cap (st2.nodes.set st.nodes.length ndI) st2.triOrder
          st.nodes.length start endd := by
        refine SubtreeOK.node st.nodes.length start
          (splitMid st.mesh st.triOrder start endd).2 endd ndI l r
          (getElem?_set_self (by omega)) rfl rfl (by omega) (by omega) hm1 hm2
          hsubL hsubR ?_ ?_
        · exact (boundsMin_perm _ segAll).symm
        · exact (boundsMax_perm _ segAll).symm
      have hall1' : ∀ k2 : ℕ, st.nodes.length + 1 ≤ k2 → k2 < st1.nodes.length →
          ∃ s e, start ≤ s ∧ s < e ∧ e ≤ (splitMid st.mesh st.triOrder start endd).2 ∧
            SubtreeOK st.mesh cap st1.nodes st1.triOrder k2 s e := by
        intro k2 h1 h2
        exact hall1 k2 (by simpa using h1) h2
      refine ⟨⟨st2.mesh, st2.triOrder, st2.nodes.set st.nodes.length ndI⟩,
        st.nodes.length, ?_, rfl, hmesh2.trans hmesh1', hlen2.trans hlen1',
        hperm2.trans (hperm1.trans hmperm), ?_, ?_, ?_, hroot, ?_, ?_⟩
      · simp only [recurse]
        rw [if_neg hleaf]
        simp only [heq1, Option.some_bind, heq2]
      · intro k hk
        rw [hframe2 k (by omega), hframe1 k (by omega)]
        exact hmframe k hk
      · intro j hj
        rw [List.getElem?_set_ne (by omega), hpre2 j (by omega), hpre1' j (by omega),
          List.getElem?_append, if_pos hj]
      · simp only [List.length_set]
        omega
      · intro k hk1 hk2
        simp only [List.length_set] at hk2
        rcases Nat.lt_or_ge k (st.nodes.length + 1) with hkA | hkB
        · have hk : k = st.nodes.length := by omega
          subst hk
          exact ⟨start, endd, le_rfl, hse, le_rfl, hroot⟩
        · rcases Nat.lt_or_ge k st1.nodes.length with hkC | hkD
          · obtain ⟨s, e, hs1, hs2, hs3, hsk⟩ := hall1' k hkB hkC
            have t2 := hsk.mono_nodes (fun j _ nd h => hnA j nd h)
            have t3 := t2.mono_ord hlen2 (fun k2 _ hk2 => hframe2 k2 (Or.inl (by omega)))
            have t4 := t3.mono_nodes (fun j hj nd h => hnB j (by omega) nd h)
            exact ⟨s, e, hs1, hs2, by omega, t4⟩
          · obtain ⟨s, e, hs1, hs2, hs3, hsk⟩ := hall2 k hkD hk2
            have t1 := hsk
            rw [hmesh1'] at t1
            have t2 := t1.mono_nodes (fun j hj nd h => hnB j (by omega) nd h)
            exact ⟨s, e, by omega, hs2, hs3, t2⟩
      · intro hcap1
        have c1 : st1.nodes.length = st.nodes.length + 1 +
            (2 * ((splitMid st.mesh st.triOrder start endd).2 - start) - 1) := by
          simpa using hcnt1 hcap1
        have c2 := hcnt2 hcap1
        simp only [List.length_set]
        omega

/-! ### From the master invariant to the build entry point -/

lemma rangeList_all (l : List ℕ) : rangeList l 0 l.length = l := by
  simp [rangeList]

/-- `nodes[idx]` of a well-formed subtree exists and carries the range's
true bounds, whether leaf or internal. -/
lemma SubtreeOK.node_info {m : Mesh} {cap : ℕ} {nodes : List Node} {ord : List ℕ}
    {idx s e : ℕ} (h : SubtreeOK m cap nodes ord idx s e) :
    ∃ nd : Node, nodes[idx]? = some nd ∧
      nd.mn = boundsMin (triMinOf m) (rangeList ord s e) ∧
      nd.mx = boundsMax (triMaxOf m) (rangeList ord s e) := by
  cases h with
  | leaf idx s e nd hnd hleft hright hlb hub hord hmn hmx => exact ⟨nd, hnd, hmn, hmx⟩
  | node idx s mid e nd l r hnd hleft hright hil hir hsm hme hsub1 hsub2 hmn hmx =>
    exact ⟨nd, hnd, hmn, hmx⟩

/-- The aggregate consequences of `recurse_spec` for `buildLBVH`. -/
lemma buildLBVH_spec (m : Mesh) (cap : ℕ) (hcap : 1 ≤ cap) (hT : 1 ≤ triCount m)
    (r : List Node × List ℕ) (h : buildLBVH m cap = some r) :
    r.2.length = triCount m ∧
    r.2.Perm (List.range (triCount m)) ∧
    SubtreeOK m cap r.1 r.2 0 0 (triCount m) ∧
    (∀ k : ℕ, k < r.1.length →
      ∃ s e, s < e ∧ e ≤ triCount m ∧ SubtreeOK m cap r.1 r.2 k s e) ∧
    0 < r.1.length ∧
    (cap = 1 → r.1.length = 2 * triCount m - 1) := by
  obtain ⟨st', idx, heq, hidx, hmesh, hlen', hperm, hframe, hpre, hgrow, hsub, hall, hcnt⟩ :=
    recurse_spec cap hcap (triCount m + 1) 0 (triCount m)
      ⟨m, List.range (triCount m), []⟩ hT (by simp) (by omega)
  have hidx0 : idx = 0 := by simpa using hidx
  subst hidx0
  have hr : r = (st'.nodes, st'.triOrder) := by
    rw [buildLBVH, buildState, heq] at h
    simp at h
    exact h.symm
  subst hr
  refine ⟨by simpa using hlen', hperm, hsub, ?_, by simpa using hgrow, by simpa using hcnt⟩
  intro k hk
  obtain ⟨s, e, _, hs2, hs3, hsk⟩ := hall k (by simp) hk
  exact ⟨s, e, hs2, hs3, hsk⟩

/-! ### Claim C2: termination without error -/

/-- C2.  For every mesh with at least one triangle and every
`leafCapacity ≥ 1`, `buildLBVH` terminates with a result (the fuel
bound is sufficient; no error state exists). -/
theorem claim_C2 (m : Mesh) (cap : ℕ) (hcap : 1 ≤ cap) (hT : 1 ≤ triCount m) :
    ∃ r : List Node × List ℕ, buildLBVH m cap = some r := by
  obtain ⟨st', idx, heq, _⟩ :=
    recurse_spec cap hcap (triCount m + 1) 0 (triCount m)
      ⟨m, List.range (triCount m), []⟩ hT (by simp) (by omega)
  refine ⟨(st'.nodes, st'.triOrder), ?_⟩
  rw [buildLBVH, buildState, heq]
  rfl

/-- Witness for C2 at the one-triangle mesh. -/
theorem claim_C2_witness : ∃ r : List Node × List ℕ, buildLBVH wMesh 1 = some r :=
  claim_C2 wMesh 1 (by norm_num) (by decide)

/-! ### Claim C1: triOrder is a permutation -/

/-- C1.  The `triOrder` returned by `buildLBVH` is a bijection onto
`[0, triangleCount)`: it is a permutation of `0, 1, ..., T-1`. -/
theorem claim_C1 (m : Mesh) (cap : ℕ) (r : List Node × List ℕ)
    (hcap : 1 ≤ cap) (hT : 1 ≤ triCount m) (h : buildLBVH m cap = some r) :
    r.2.Perm (List.range (triCount m)) :=
  (buildLBVH_spec m cap hcap hT r h).2.1

/-- Witness for C1 at the one-triangle mesh. -/
theorem claim_C1_witness :
    (([⟨⟨0, 0, 0⟩, ⟨1, 1, 0⟩, 0, -1⟩], [0]) : List Node × List ℕ).2.Perm
      (List.range (triCount wMesh)) :=
  claim_C1 wMesh 1 _ (by norm_num) (by decide) (by decide)

/-! ### Claim C3: node bounds are exact unions -/

/-- C3.  In the returned tree every node's bounds are the componentwise
min/max union of the per-triangle AABBs of the triangles of its index
range (stated per node through its range); consequently the root's
bounds are the union over all triangles, every internal node's bounds
are the union of its two children's bounds, and every leaf's bounds are
the union over its stored `(left, -right)` range. -/
theorem claim_C3 (m : Mesh) (cap : ℕ) (r : List Node × List ℕ)
    (hcap : 1 ≤ cap) (hT : 1 ≤ triCount m) (h : buildLBVH m cap = some r) :
    (∀ nd : Node, r.1[0]? = some nd →
        nd.mn = boundsMin (triMinOf m) (List.range (triCount m)) ∧
        nd.mx = boundsMax (triMaxOf m) (List.range (triCount m))) ∧
    (∀ (i : ℕ) (nd : Node), r.1[i]? = some nd →
        ∃ s e, s < e ∧ e ≤ triCount m ∧
          nd.mn = boundsMin (triMinOf m) (rangeList r.2 s e) ∧
          nd.mx = boundsMax (triMaxOf m) (rangeList r.2 s e)) ∧
    (∀ (i : ℕ) (nd cl cr : Node), r.1[i]? = some nd → 0 ≤ nd.right →
        r.1[nd.left.toNat]? = some cl → r.1[nd.right.toNat]? = some cr →
        nd.mn = vmin cl.mn cr.mn ∧ nd.mx = vmax cl.mx cr.mx) ∧
    (∀ (i : ℕ) (nd : Node), r.1[i]? = some nd → nd.right < 0 →
        nd.mn = boundsMin (triMinOf m)
          (rangeList r.2 nd.left.toNat (nd.left.toNat + (-nd.right).toNat)) ∧
        nd.mx = boundsMax (triMaxOf m)
          (rangeList r.2 nd.left.toNat (nd.left.toNat + (-nd.right).toNat))) := by
  obtain ⟨hlen, hperm, hroot, hall, hpos, _⟩ := buildLBVH_spec m cap hcap hT r h
  have hfull : rangeList r.2 0 (triCount m) = r.2 := by
    rw [← hlen, rangeList_all]
  refine ⟨?_, ?_, ?_, ?_⟩
  · intro nd hnd0
    obtain ⟨nd', hnd', hmn, hmx⟩ := hroot.node_info
    rw [hnd'] at hnd0
    obtain rfl := Option.some.inj hnd0
    rw [hfull] at hmn hmx
    exact ⟨hmn.trans (boundsMin_perm _ hperm), hmx.trans (boundsMax_perm _ hperm)⟩
  · intro i nd hnd
    obtain ⟨s, e, hs2, hs3, hsk⟩ := hall i (List.getElem?_eq_some.mp hnd).1
    obtain ⟨nd', hnd', hmn, hmx⟩ := hsk.node_info
    rw [hnd'] at hnd
    obtain rfl := Option.some.inj hnd
    exact ⟨s, e, hs2, hs3, hmn, hmx⟩
  · intro i nd cl cr hnd hr0 hcl hcr
    obtain ⟨s, e, _, _, hsk⟩ := hall i (List.getElem?_eq_some.mp hnd).1
    cases hsk with
    | leaf idx s e nd' hnd' hleft hright hlb hub hord hmn hmx =>
      rw [hnd'] at hnd
      obtain rfl := Option.some.inj hnd
      exfalso
      rw [hright] at hr0
      omega
    | node idx s mid e nd' l' r' hnd' hleft hright hil hir hsm hme hsub1 hsub2 hmn hmx =>
      rw [hnd'] at hnd
      obtain rfl := Option.some.inj hnd
      obtain ⟨ndl, hndl, hmnl, hmxl⟩ := hsub1.node_info
      obtain ⟨ndr, hndr, hmnr, hmxr⟩ := hsub2.node_info
      have hlt : nd'.left.toNat = l' := by omega
      have hrt : nd'.right.toNat = r' := by omega
      rw [hlt, hndl] at hcl
      rw [hrt, hndr] at hcr
      have hclE : ndl = cl := Option.some.inj hcl
      have hcrE : ndr = cr := Option.some.inj hcr
      subst hclE
      subst hcrE
      have hne1 : rangeList r.2 s mid ≠ [] :=
        rangeList_ne_nil hsm (hsub1.range_facts).2
      have hne2 : rangeList r.2 mid e ≠ [] :=
        rangeList_ne_nil hme (hsub2.range_facts).2
      constructor
      · rw [hmn, rangeList_split (le_of_lt hsm) (le_of_lt hme),
          boundsMin_append _ hne1 hne2, ← hmnl, ← hmnr]
      · rw [hmx, rangeList_split (le_of_lt hsm) (le_of_lt hme),
          boundsMax_append _ hne1 hne2, ← hmxl, ← hmxr]
  · intro i nd hnd hneg
    obtain ⟨s, e, _, _, hsk⟩ := hall i (List.getElem?_eq_some.mp hnd).1
    cases hsk with
    | leaf idx s e nd' hnd' hleft hright hlb hub hord hmn hmx =>
      rw [hnd'] at hnd
      obtain rfl := Option.some.inj hnd
      have h1 : nd'.left.toNat = s := by omega
      have h2 : nd'.left.toNat + (-nd'.right).toNat = e := by omega
      rw [h2, h1]
      exact ⟨hmn, hmx⟩
    | node idx s mid e nd' l' r' hnd' hleft hright hil hir hsm hme hsub1 hsub2 hmn hmx =>
      rw [hnd'] at hnd
      obtain rfl := Option.some.inj hnd
      exfalso
      rw [hright] at hneg
      omega

/-- Witness for C3 (root-bounds component) at the one-triangle mesh. -/
theorem claim_C3_witness :
    (⟨⟨0, 0, 0⟩, ⟨1, 1, 0⟩, 0, -1⟩ : Node).mn
        = boundsMin (triMinOf wMesh) (List.range (triCount wMesh)) ∧
    (⟨⟨0, 0, 0⟩, ⟨1, 1, 0⟩, 0, -1⟩ : Node).mx
        = boundsMax (triMaxOf wMesh) (List.range (triCount wMesh)) :=
  (claim_C3 wMesh 1 ([⟨⟨0, 0, 0⟩, ⟨1, 1, 0⟩, 0, -1⟩], [0])
    (by norm_num) (by decide) (by decide)).1 _ (by decide)

/-! ### Claim C4: leaf encoding and full traversal coverage -/

/-- C4.  A node of the returned array is a leaf exactly when `right` is
negative; a leaf's `left` is the start offset of its range in `triOrder`
and `right` the negated (positive) count, with the range inside
`[0, T)`; an internal node's `left`/`right` are non-negative valid node
indices; and traversal from the root reaches every triangle: every
triangle index occurs at a position of `triOrder` covered by some leaf's
`(left, -right)` range. -/
theorem claim_C4 (m : Mesh) (cap : ℕ) (r : List Node × List ℕ)
    (hcap : 1 ≤ cap) (hT : 1 ≤ triCount m) (h : buildLBVH m cap = some r) :
    (∀ (i : ℕ) (nd : Node), r.1[i]? = some nd →
      (nd.right < 0 →
        ∃ s c : ℕ, nd.left = (s : ℤ) ∧ nd.right = -(c : ℤ) ∧ 1 ≤ c ∧ s + c ≤ triCount m) ∧
      (0 ≤ nd.right →
        ∃ li ri : ℕ, nd.left = (li : ℤ) ∧ nd.right = (ri : ℤ) ∧
          li < r.1.length ∧ ri < r.1.length)) ∧
    (∀ t : ℕ, t < triCount m →
      ∃ (i p : ℕ) (nd : Node), r.1[i]? = some nd ∧ nd.right < 0 ∧
        nd.left.toNat ≤ p ∧ p < nd.left.toNat + (-nd.right).toNat ∧ r.2[p]? = some t) := by
  obtain ⟨hlen, hperm, hroot, hall, hpos, _⟩ := buildLBVH_spec m cap hcap hT r h
  constructor
  · intro i nd hnd
    obtain ⟨s, e, _, he0, hsk⟩ := hall i (List.getElem?_eq_some.mp hnd).1
    cases hsk with
    | leaf idx s e nd' hnd' hleft hright hlb hub hord hmn hmx =>
      rw [hnd'] at hnd
      have hndE : nd' = nd := Option.some.inj hnd
      subst hndE
      constructor
      · intro _
        refine ⟨s, e - s, hleft, by rw [hright], hlb, ?_⟩
        have : e ≤ triCount m := by rw [← hlen]; exact hord
        omega
      · intro hge
        exfalso
        rw [hright] at hge
        omega
    | node idx s mid e nd' l' r' hnd' hleft hright hil hir hsm hme hsub1 hsub2 hmn hmx =>
      rw [hnd'] at hnd
      have hndE : nd' = nd := Option.some.inj hnd
      subst hndE
      constructor
      · intro hlt
        exfalso
        rw [hright] at hlt
        omega
      · intro _
        obtain ⟨ndl, hndl, _, _⟩ := hsub1.node_info
        obtain ⟨ndr, hndr, _, _⟩ := hsub2.node_info
        exact ⟨l', r', hleft, hright, (List.getElem?_eq_some.mp hndl).1,
          (List.getElem?_eq_some.mp hndr).1⟩
  · intro t ht
    have hmem : t ∈ r.2 := hperm.mem_iff.mpr (List.mem_range.mpr ht)
    obtain ⟨p, hp⟩ := List.mem_iff_getElem?.mp hmem
    have hplt : p < triCount m := by
      have := (List.getElem?_eq_some.mp hp).1
      omega
    obtain ⟨li, nd, hnd, hneg, hple, hplt2⟩ := hroot.covers p (Nat.zero_le p) hplt
    exact ⟨li, p, nd, hnd, hneg, hple, hplt2, hp⟩

/-- Witness for C4 (coverage component) at the one-triangle mesh. -/
theorem claim_C4_witness :
    ∃ (i p : ℕ) (nd : Node),
      (([⟨⟨0, 0, 0⟩, ⟨1, 1, 0⟩, 0, -1⟩], [0]) : List Node × List ℕ).1[i]? = some nd ∧
      nd.right < 0 ∧ nd.left.toNat ≤ p ∧ p < nd.left.toNat + (-nd.right).toNat ∧
      (([⟨⟨0, 0, 0⟩, ⟨1, 1, 0⟩, 0, -1⟩], [0]) : List Node × List ℕ).2[p]? = some 0 :=
  (claim_C4 wMesh 1 ([⟨⟨0, 0, 0⟩, ⟨1, 1, 0⟩, 0, -1⟩], [0])
    (by norm_num) (by decide) (by decide)).2 0 (by decide)

/-! ### Claim C5: leaf capacity and strict binary tree size -/

/-- C5.  Every leaf of the returned tree holds at most `leafCapacity`
triangles; with `leafCapacity = 1` every leaf holds exactly one triangle
(`right = -1`) and the node array has exactly `2T - 1` entries. -/
theorem claim_C5 (m : Mesh) (cap : ℕ) (r : List Node × List ℕ)
    (hcap : 1 ≤ cap) (hT : 1 ≤ triCount m) (h : buildLBVH m cap = some r) :
    (∀ (i : ℕ) (nd : Node), r.1[i]? = some nd → nd.right < 0 → (-nd.right).toNat ≤ cap) ∧
    (cap = 1 →
      (∀ (i : ℕ) (nd : Node), r.1[i]? = some nd → nd.right < 0 → nd.right = -1) ∧
      r.1.length = 2 * triCount m - 1) := by
  obtain ⟨hlen, hperm, hroot, hall, hpos, hcnt⟩ := buildLBVH_spec m cap hcap hT r h
  have key : ∀ (i : ℕ) (nd : Node), r.1[i]? = some nd → nd.right < 0 →
      1 ≤ (-nd.right).toNat ∧ (-nd.right).toNat ≤ cap := by
    intro i nd hnd hneg
    obtain ⟨s, e, _, _, hsk⟩ := hall i (List.getElem?_eq_some.mp hnd).1
    cases hsk with
    | leaf idx s e nd' hnd' hleft hright hlb hub hord hmn hmx =>
      rw [hnd'] at hnd
      have hndE : nd' = nd := Option.some.inj hnd
      subst hndE
      rw [hright]
      omega
    | node idx s mid e nd' l' r' hnd' hleft hright hil hir hsm hme hsub1 hsub2 hmn hmx =>
      rw [hnd'] at hnd
      have hndE : nd' = nd := Option.some.inj hnd
      subst hndE
      exfalso
      rw [hright] at hneg
      omega
  refine ⟨fun i nd hnd hneg => (key i nd hnd hneg).2, fun hcap1 => ⟨?_, hcnt hcap1⟩⟩
  intro i nd hnd hneg
  have hk := key i nd hnd hneg
  rw [hcap1] at hk
  omega

/-- Witness for C5 at the one-triangle mesh with capacity 1. -/
theorem claim_C5_witness :
    (([⟨⟨0, 0, 0⟩, ⟨1, 1, 0⟩, 0, -1⟩], [0]) : List Node × List ℕ).1.length
      = 2 * triCount wMesh - 1 :=
  ((claim_C5 wMesh 1 ([⟨⟨0, 0, 0⟩, ⟨1, 1, 0⟩, 0, -1⟩], [0])
    (by norm_num) (by decide) (by decide)).2 rfl).2
